import Mathlib

/-!
Verification development for the semantic compression engine of
`scripts/semantic-compressor.py` (class `SemanticCompressor`).

Modelling conventions of the shallow embedding:

* Python strings are Lean `String`s; internally the transformations work on
  `List Char` (Python `len` = number of code points = `List.length`).
* Python floats are modelled as exact rationals `ℚ` (the float literals
  `0.10`, `0.95`, ... become `1/10`, `19/20`, ...).
* The fixed regular expressions of the source are compiled by hand into
  dedicated scanning functions.  Each scanner follows CPython `re` semantics
  (leftmost match, greedy with backtracking, scan resumes after the match);
  the derivation of each scanner from its pattern is documented at the
  definition.  Character classes `\s`, `\w`, upper/lower case are modelled
  at their ASCII meaning.
* Wall-clock time is modelled as zero elapsed seconds: the pipeline's
  per-strategy timeout check `elapsed.seconds >= max_time` becomes
  `0 ≥ max_time`, and `processing_time` of a result is `0`.
* The only exception that a strategy can raise is the `ZeroDivisionError`
  of `semantic_condensation` on empty input, so strategies return
  `Option (String × ℚ)` with `none` for "raised".  The `ZeroDivisionError`
  of the in-loop reduction check when `original_size = 0` is modelled by
  not breaking in that case (in the source the exception is caught by the
  same `except` and the loop continues; the append to `method_used` and the
  preservation update have already happened at that point).
* The cache key `f"{content_hash}_{target_reduction}_{aggressive_mode}"` is
  modelled as the tuple `(content_hash, target_reduction, aggressive_mode)`;
  the Python string is an injective image of this tuple (the md5 hex digest
  has fixed length 32 and contains no underscore).
* `compress_content` assigns `analysis = self.analyze_content(content)` and
  never uses it; the call is pure, so the embedding drops it.
* Functions that need non-structural recursion take an explicit fuel
  argument; callers pass a fuel that is an upper bound on the number of
  scanning steps (any fuel at least the list length is enough, which the
  lemmas make explicit where needed).
-/

namespace SemCompress

/-- ASCII model of the Python regex class `\s` (also what `str.strip`,
`str.rstrip` remove): space, tab, newline, carriage return, vertical tab,
form feed. -/
def isSpaceChar (c : Char) : Bool :=
  c = ' ' || c = '\t' || c = '\n' || c = '\r' || c = '\x0b' || c = '\x0c'

/-- The class `[ \t]` used by the space-normalisation step of
`compress_whitespace`. -/
def isHorizChar (c : Char) : Bool :=
  c = ' ' || c = '\t'

/-- ASCII model of the Python regex class `\w`: letters, digits, underscore. -/
def isWordChar (c : Char) : Bool :=
  c.isAlpha || c.isDigit || c = '_'

/-- ASCII lowercasing, used to model `re.IGNORECASE` and `str.lower()`. -/
def lowerCh (c : Char) : Char := c.toLower

/-- Class `[A-Z]`. -/
def isUpperCh (c : Char) : Bool := c.isUpper

/-- Class `[a-z]`. -/
def isLowerCh (c : Char) : Bool := c.isLower

/-- Class `[A-Za-z]`. -/
def isLetterCh (c : Char) : Bool := c.isUpper || c.isLower

/-- Python `content.split('\n')`: splitting on every newline, so that
`splitNl [] = [[]]` (like `"".split('\n') == ['']`). -/
def splitNl : List Char → List (List Char)
  | [] => [[]]
  | c :: cs =>
    if c = '\n' then [] :: splitNl cs
    else
      match splitNl cs with
      | [] => [[c]]
      | l :: ls => (c :: l) :: ls

/-- Python `'\n'.join(lines)`. -/
def joinNl : List (List Char) → List Char
  | [] => []
  | [l] => l
  | l :: ls => l ++ '\n' :: joinNl ls

/-- Python `line.rstrip()` (on whitespace). -/
def rstripWs (l : List Char) : List Char :=
  (l.reverse.dropWhile isSpaceChar).reverse

/-- Python `line.strip()` (on whitespace). -/
def stripWs (l : List Char) : List Char :=
  rstripWs (l.dropWhile isSpaceChar)

/-- Python `len(line) - len(line.lstrip())`: the number of leading whitespace
characters. -/
def leadingWsCount (l : List Char) : Nat :=
  (l.takeWhile isSpaceChar).length

/-- Decimal digits of a natural number (own fuel-based printer for the
`[REF_n]`, `[FUNC_i]`, `[JSON_i]` tags; `natStr` below supplies enough
fuel). -/
def natDigits : Nat → Nat → List Char
  | 0, _ => []
  | fuel + 1, n =>
    if n < 10 then [Char.ofNat (48 + n)]
    else natDigits fuel (n / 10) ++ [Char.ofNat (48 + n % 10)]

/-- Python `str(n)` for a natural number. -/
def natStr (n : Nat) : List Char := natDigits (n + 1) n

/-- Rewrite every maximal run of characters satisfying `p` through `f`,
leaving the other characters unchanged.  First argument of `go` is the
current run, reversed. -/
def mapRunsGo (p : Char → Bool) (f : List Char → List Char) :
    List Char → List Char → List Char
  | acc, [] => if acc.isEmpty then [] else f acc.reverse
  | acc, c :: cs =>
    if p c then mapRunsGo p f (c :: acc) cs
    else (if acc.isEmpty then [] else f acc.reverse) ++ c :: mapRunsGo p f [] cs

/-- Rewrite every maximal `p`-run of a string through `f`. -/
def mapRuns (p : Char → Bool) (f : List Char → List Char) (l : List Char) :
    List Char :=
  mapRunsGo p f [] l

/-- Substitution `re.sub(r'\r\n|\r', '\n', content)`: every CRLF pair and every lone CR
becomes LF. -/
def subCrlf : List Char → List Char
  | [] => []
  | '\r' :: '\n' :: cs => '\n' :: subCrlf cs
  | '\r' :: cs => '\n' :: subCrlf cs
  | c :: cs => c :: subCrlf cs

/-- Substitution `re.sub(r'\n\s*\n\s*\n+', repl, content)`.  Every candidate match lies
inside one maximal whitespace run (all pattern atoms only match `\s`).
Within a run whose newlines sit at positions `n₁ < … < n_k`, a match exists
iff the run starts a match at its first newline and `k ≥ 3`; backtracking
order makes the match extent exactly `[n₁, n_k]` (the first `\s*` lands
before `n_{k-1}`, the second ends at `n_k`, the final `\n+` is `n_k` alone).
So the whole run is rewritten to the whitespace before `n₁`, then `repl`,
then the whitespace after `n_k`. -/
def subBlankRuns (repl : List Char) : List Char → List Char :=
  mapRuns isSpaceChar fun run =>
    if 3 ≤ run.count '\n' then
      run.takeWhile (· ≠ '\n') ++ repl ++ (run.reverse.takeWhile (· ≠ '\n')).reverse
    else run

/-- Substitution `re.sub(r'(\s+)(\s+)+', lambda m: m.group(1), content)`.  A match is a
whole maximal whitespace run of length `L ≥ 2`; greedy backtracking leaves
group 1 with the first `L - 1` characters and the single repetition of
group 2 with the last one, so the run is replaced by itself minus its last
character. -/
def subDoubleWs : List Char → List Char :=
  mapRuns isSpaceChar fun run => if 2 ≤ run.length then run.dropLast else run

/-- Substitution `re.sub(r'[ \t]+', ' ', content)`: every maximal space/tab run becomes a
single space. -/
def collapseHoriz : List Char → List Char :=
  mapRuns isHorizChar fun _ => [' ']

/-- Substitution `re.sub(r'\s+', ' ', line)`: every maximal whitespace run becomes a
single space. -/
def collapseAllWs : List Char → List Char :=
  mapRuns isSpaceChar fun _ => [' ']

/-- Case-insensitive (ASCII) prefix test: does `l` start with `a`? -/
def ciPrefix : List Char → List Char → Bool
  | [], _ => true
  | _ :: _, [] => false
  | a :: as, c :: cs => lowerCh a = lowerCh c && ciPrefix as cs

/-- Word-boundary test `\b` placed after an alternative whose last character
is `a`, with `rest` the text following the matched portion: the boundary
holds iff exactly one side is a word character (end of string counts as a
non-word side). -/
def boundaryAfter (a : Char) (rest : List Char) : Bool :=
  match rest with
  | [] => isWordChar a
  | c :: _ => isWordChar a != isWordChar c

/-- Word-boundary test `\b` placed before an alternative that begins with a
word character (every alternative of the source's patterns does): the
boundary holds iff the preceding character, if any, is not a word
character. -/
def boundaryBefore : Option Char → Bool
  | none => true
  | some c => !isWordChar c

/-- Try the alternatives of `\b(?:a₁|a₂|…)\b` in order at the start of `l`
(`prev` is the character just before `l` in the whole subject, if any);
return the alternative that matches, if one does.  Matching is
case-insensitive, mirroring `re.IGNORECASE`. -/
def tryAlts (alts : List (List Char)) (prev : Option Char) (l : List Char) :
    Option (List Char) :=
  if boundaryBefore prev then
    alts.find? fun a =>
      ciPrefix a l &&
        (match a.getLast? with
         | none => true
         | some x => boundaryAfter x (l.drop a.length))
  else none

/-- One `re.sub` pass of `\b(?:a₁|a₂|…)\b → repl` (case-insensitive):
scan left to right, replace each non-overlapping match, resume after the
matched text. -/
def subAltsGo (alts : List (List Char)) (repl : List Char) :
    Nat → Option Char → List Char → List Char
  | 0, _, l => l
  | _ + 1, _, [] => []
  | fuel + 1, prev, c :: cs =>
    match tryAlts alts prev (c :: cs) with
    | some a =>
      repl ++ subAltsGo alts repl fuel (((c :: cs).take a.length).getLast?)
        ((c :: cs).drop a.length)
    | none => c :: subAltsGo alts repl fuel (some c) cs

/-- Substitution `re.sub(r'\b(?:a₁|a₂|…)\b', repl, content, flags=re.IGNORECASE)`. -/
def subAlts (alts : List (List Char)) (repl : List Char) (l : List Char) :
    List Char :=
  subAltsGo alts repl (l.length + 1) none l

/-- Search `re.search(r'\b(?:a₁|a₂|…)\b', line, re.IGNORECASE) is not None`. -/
def searchAltsGo (alts : List (List Char)) :
    Nat → Option Char → List Char → Bool
  | 0, _, _ => false
  | _ + 1, _, [] => false
  | fuel + 1, prev, c :: cs =>
    (tryAlts alts prev (c :: cs)).isSome || searchAltsGo alts fuel (some c) cs

/-- Boolean search for a word-bounded alternation. -/
def searchAlts (alts : List (List Char)) (l : List Char) : Bool :=
  searchAltsGo alts (l.length + 1) none l

/-- Tokens `re.findall(r'\b\w+\b', text.lower())`: the maximal word-character runs
of the lowercased text (a maximal `\w`-run always has word boundaries at
both ends). -/
def wordRunsGo : List Char → List Char → List (List Char)
  | acc, [] => if acc.isEmpty then [] else [acc.reverse]
  | acc, c :: cs =>
    if isWordChar c then wordRunsGo (lowerCh c :: acc) cs
    else (if acc.isEmpty then [] else [acc.reverse]) ++ wordRunsGo [] cs

/-- Lowercased word tokens of a text. -/
def wordRuns (l : List Char) : List (List Char) := wordRunsGo [] l

/-- Python `str.replace(pat, repl)` (all non-overlapping occurrences, left
to right).  `pat` is assumed non-empty, as at every use site. -/
def replaceAll (pat repl : List Char) : Nat → List Char → List Char
  | 0, l => l
  | _ + 1, [] => []
  | fuel + 1, c :: cs =>
    if pat.isPrefixOf (c :: cs) then
      repl ++ replaceAll pat repl fuel ((c :: cs).drop pat.length)
    else c :: replaceAll pat repl fuel cs

/-- Python `str.replace(pat, repl, 1)`: replace only the first occurrence. -/
def replaceFirst (pat repl : List Char) : Nat → List Char → List Char
  | 0, l => l
  | _ + 1, [] => []
  | fuel + 1, c :: cs =>
    if pat.isPrefixOf (c :: cs) then repl ++ (c :: cs).drop pat.length
    else c :: replaceFirst pat repl fuel cs

/-- Generic one-pass `re.sub` scanner: `try_ l` reports a match at the head
of `l` as `(matched length, replacement text)`; on a match the scan resumes
after the matched text, otherwise it advances one character.  Every
`try_` used below only reports matches of positive length, so the fuel
(list length + 1 at every call site) never runs out. -/
def scanSub (try_ : List Char → Option (Nat × List Char)) :
    Nat → List Char → List Char
  | 0, l => l
  | _ + 1, [] => []
  | fuel + 1, c :: cs =>
    match try_ (c :: cs) with
    | some (n, r) => r ++ scanSub try_ fuel ((c :: cs).drop n)
    | none => c :: scanSub try_ fuel cs

/-- One repetition `The\s+same\s+\w+\s+` at the head of `l` (its length).
Each `\s+`/`\w+` is forced to its maximal run: shortening a greedy run
would put a character of the same class where the next literal/class
expects a different one. -/
def parseRep3 (l : List Char) : Option Nat :=
  if ("The" : String).data.isPrefixOf l then
    let l1 := l.drop 3
    let w1 := l1.takeWhile isSpaceChar
    if w1.isEmpty then none else
    let l2 := l1.drop w1.length
    if ("same" : String).data.isPrefixOf l2 then
      let l3 := l2.drop 4
      let w2 := l3.takeWhile isSpaceChar
      if w2.isEmpty then none else
      let l4 := l3.drop w2.length
      let wd := l4.takeWhile isWordChar
      if wd.isEmpty then none else
      let l5 := l4.drop wd.length
      let w3 := l5.takeWhile isSpaceChar
      if w3.isEmpty then none else
      some (3 + w1.length + 4 + w2.length + wd.length + w3.length)
    else none
  else none

/-- The lengths of the maximal sequence of `The\s+same\s+\w+\s+`
repetitions at the head of `l`. -/
def reps3 : Nat → List Char → List Nat
  | 0, _ => []
  | fuel + 1, l =>
    match parseRep3 l with
    | none => []
    | some n => n :: reps3 fuel (l.drop n)

/-- Match of `(The\s+same\s+\w+\s+){2,}` at the head of `l`: greedy, so the
maximal repetition sequence (nothing follows the repetition, hence no
backtracking); group 1 holds the text of the last repetition, which is the
replacement `m.group(1)`. -/
def tryMatchP3 (l : List Char) : Option (Nat × List Char) :=
  let ns := reps3 (l.length + 1) l
  if 2 ≤ ns.length then
    let total := ns.sum
    let lastN := ns.getLastD 0
    some (total, (l.drop (total - lastN)).take lastN)
  else none

/-- The lengths of the maximal sequence of `\w+\s+` repetitions at the head
of `l` (each `\w+` and `\s+` forced to its maximal run, as above). -/
def parsePairs : Nat → List Char → List Nat
  | 0, _ => []
  | fuel + 1, l =>
    let wd := l.takeWhile isWordChar
    if wd.isEmpty then [] else
    let l1 := l.drop wd.length
    let ws := l1.takeWhile isSpaceChar
    if ws.isEmpty then [] else
    (wd.length + ws.length) :: parsePairs fuel (l1.drop ws.length)

/-- Backreference search of `(\w+\s+){3,}\1`: with the repetition count `k`
tried from the maximum down to 3 (greedy `{3,}`), the match succeeds at the
first `k` whose last repetition text immediately repeats after the `k`
repetitions.  Group 1 is that last repetition, which is the replacement. -/
def descend4 (l : List Char) (ns : List Nat) : Nat → Option (Nat × List Char)
  | 0 => none
  | 1 => none
  | 2 => none
  | k + 3 =>
    let consumed := (ns.take (k + 3)).sum
    let gLen := ns.getD (k + 2) 0
    let g := (l.drop (consumed - gLen)).take gLen
    if g.isPrefixOf (l.drop consumed) then some (consumed + gLen, g)
    else descend4 l ns (k + 2)

/-- Match of `(\w+\s+){3,}\1` at the head of `l`.  Inner backtracking of
`\w+`/`\s+` never helps: a shortened greedy run places a same-class
character where `\1` (which starts with a word character and continues
with the whitespace of the last repetition) or the next repetition would
need the other class. -/
def tryMatchP4 (l : List Char) : Option (Nat × List Char) :=
  let ns := parsePairs (l.length + 1) l
  descend4 l ns ns.length

/-- A fenced code block ```` ```[^`]*``` ```` at the head of `l` (its
length): three backticks, the maximal run of non-backticks, and three
closing backticks ( `[^`]*` cannot backtrack past a non-backtick). -/
def parseTicks (l : List Char) : Option Nat :=
  match l with
  | '\x60' :: '\x60' :: '\x60' :: rest =>
    let w := rest.takeWhile (· ≠ '\x60')
    match rest.drop w.length with
    | '\x60' :: '\x60' :: '\x60' :: _ => some (6 + w.length)
    | _ => none
  | _ => none

/-- Match of `` (```[^`]*```)\s*\1 `` at the head of `l`: a code block,
then the maximal whitespace run (`\s*` cannot usefully backtrack because
`\1` starts with a backtick), then the same block again.  Group 1 is the
block, which is the replacement. -/
def tryMatchP5 (l : List Char) : Option (Nat × List Char) :=
  match parseTicks l with
  | some bl =>
    let b := l.take bl
    let ws := (l.drop bl).takeWhile isSpaceChar
    if b.isPrefixOf (l.drop (bl + ws.length)) then
      some (bl + ws.length + bl, b)
    else none
  | none => none

/-- The code-fence extraction of `compress_whitespace`: one scan computing
both `re.sub(code_pattern, '<<<CODE_BLOCK>>>', content)` and the list of
matched blocks of `re.finditer` (same matches, same order). -/
def scanBlocksGo : Nat → List Char → List Char × List (List Char)
  | 0, l => (l, [])
  | _ + 1, [] => ([], [])
  | fuel + 1, c :: cs =>
    match parseTicks (c :: cs) with
    | some bl =>
      let p := scanBlocksGo fuel ((c :: cs).drop bl)
      (("<<<CODE_BLOCK>>>" : String).data ++ p.1, (c :: cs).take bl :: p.2)
    | none =>
      let p := scanBlocksGo fuel cs
      (c :: p.1, p.2)

/-- Boolean `re.search` of the preserve pattern `` ```[^`]*``` ``. -/
def hasFenceGo : Nat → List Char → Bool
  | 0, _ => false
  | _ + 1, [] => false
  | fuel + 1, c :: cs => (parseTicks (c :: cs)).isSome || hasFenceGo fuel cs

/-- Boolean `re.search` of the preserve pattern `` `[^`]+` ``: a backtick, at least
one non-backtick, then (the maximal non-backtick run being followed by) a
backtick. -/
def hasInlineGo : Nat → List Char → Bool
  | 0, _ => false
  | _ + 1, [] => false
  | fuel + 1, '\x60' :: cs =>
    (let w := cs.takeWhile (· ≠ '\x60')
     !w.isEmpty && !(cs.drop w.length).isEmpty) || hasInlineGo fuel cs
  | fuel + 1, _ :: cs => hasInlineGo fuel cs

/-- Match of `https?://[^\s]+` at the head of `l` (case-sensitive; at least
one non-whitespace character must follow the scheme). -/
def hasUrlAt (l : List Char) : Bool :=
  (("http://" : String).data.isPrefixOf l &&
    match l.drop 7 with
    | c :: _ => !isSpaceChar c
    | [] => false) ||
  (("https://" : String).data.isPrefixOf l &&
    match l.drop 8 with
    | c :: _ => !isSpaceChar c
    | [] => false)

/-- Boolean `re.search` of the preserve pattern `https?://[^\s]+`. -/
def hasUrlGo : Nat → List Char → Bool
  | 0, _ => false
  | _ + 1, [] => false
  | fuel + 1, c :: cs => hasUrlAt (c :: cs) || hasUrlGo fuel cs

/-- Match of `[A-Z][A-Z_]+[A-Z]` at the head of `l`: an uppercase letter,
then inside the maximal `[A-Z_]` run an uppercase letter at offset ≥ 2
(so that `[A-Z_]+` is non-empty). -/
def hasConstAt (l : List Char) : Bool :=
  match l with
  | c :: cs =>
    isUpperCh c &&
      ((cs.takeWhile fun ch => isUpperCh ch || ch = '_').drop 1).any isUpperCh
  | [] => false

/-- Boolean `re.search` of the preserve pattern `[A-Z][A-Z_]+[A-Z]`. -/
def hasConstGo : Nat → List Char → Bool
  | 0, _ => false
  | _ + 1, [] => false
  | fuel + 1, c :: cs => hasConstAt (c :: cs) || hasConstGo fuel cs

/-- Match of `[A-Z][a-z]+[A-Z][A-Za-z]*\b` at the head of `l`: uppercase,
the maximal non-empty lowercase run, an uppercase letter, the maximal
letter run, and a word boundary after it (the character after the maximal
letter run, if any, must not be a word character — backtracking inside the
letter run always lands between two word characters and cannot help). -/
def hasCamelAt (l : List Char) : Bool :=
  match l with
  | c :: cs =>
    isUpperCh c &&
      (let low := cs.takeWhile isLowerCh
       !low.isEmpty &&
         match cs.drop low.length with
         | d :: ds =>
           isUpperCh d &&
             (let letters := ds.takeWhile isLetterCh
              match ds.drop letters.length with
              | [] => true
              | e :: _ => !isWordChar e)
         | [] => false)
  | [] => false

/-- Boolean `re.search` of the preserve pattern `\b[A-Z][a-z]+[A-Z][A-Za-z]*\b`
(the leading `\b` needs the preceding character, if any, to be a
non-word character). -/
def hasCamelGo : Nat → Option Char → List Char → Bool
  | 0, _, _ => false
  | _ + 1, _, [] => false
  | fuel + 1, prev, c :: cs =>
    (boundaryBefore prev && hasCamelAt (c :: cs)) || hasCamelGo fuel (some c) cs

/-- Boolean `re.search` of the preserve pattern `\$\{[^}]+\}`. -/
def hasVarSubGo : Nat → List Char → Bool
  | 0, _ => false
  | _ + 1, [] => false
  | fuel + 1, '$' :: cs =>
    (match cs with
     | '\x7b' :: rest =>
       let w := rest.takeWhile (· ≠ '\x7d')
       !w.isEmpty && !(rest.drop w.length).isEmpty
     | _ => false) || hasVarSubGo fuel cs
  | fuel + 1, _ :: cs => hasVarSubGo fuel cs

/-- Lookahead `(?=\ndef|\nclass|\n\S|\Z)` of the function-pattern regex:
`\ndef` and `\nclass` start with `\n` plus a non-whitespace character, so
the test is "end of input, or a newline followed by a non-whitespace
character". -/
def funcLook : List Char → Bool
  | [] => true
  | '\n' :: d :: _ => !isSpaceChar d
  | _ => false

/-- Lazy extension `[^:]*?` up to the first position where `funcLook`
holds; fails if a `:` (which `[^:]` cannot consume) is reached first. -/
def lazyExt : Nat → List Char → Option Nat
  | 0, _ => none
  | fuel + 1, l =>
    if funcLook l then some 0
    else
      match l with
      | [] => some 0
      | ':' :: _ => none
      | _ :: rest => (lazyExt fuel rest).map (· + 1)

/-- Match of `def\s+(\w+)\([^)]*\):[^:]*?(?=\ndef|\nclass|\n\S|\Z)` at the
head of `l`, as `(match length, group 1)`.  `\s+`, `\w+` and `[^)]*` are
forced to their maximal runs (shortening puts a same-class character where
the following literal expects another); `re.findall` collects group 1, the
function name. -/
def parseFuncAt (fuel : Nat) (l : List Char) : Option (Nat × List Char) :=
  if ("def" : String).data.isPrefixOf l then
    let l1 := l.drop 3
    let ws := l1.takeWhile isSpaceChar
    if ws.isEmpty then none else
    let l2 := l1.drop ws.length
    let name := l2.takeWhile isWordChar
    if name.isEmpty then none else
    match l2.drop name.length with
    | '(' :: l4 =>
      let inner := l4.takeWhile (· ≠ ')')
      (match l4.drop inner.length with
       | ')' :: ':' :: l5 =>
         (lazyExt fuel l5).map fun ext =>
           (3 + ws.length + name.length + 1 + inner.length + 2 + ext, name)
       | _ => none)
    | _ => none
  else none

/-- Scan `re.findall` of the function pattern: collect the group-1 names of
the non-overlapping matches, resuming after each match. -/
def findFuncNames : Nat → List Char → List (List Char)
  | 0, _ => []
  | _ + 1, [] => []
  | fuel + 1, c :: cs =>
    match parseFuncAt (fuel + 1) (c :: cs) with
    | some (n, name) => name :: findFuncNames fuel ((c :: cs).drop n)
    | none => findFuncNames fuel cs

/-- Iterations `(?:\{[^{}]*\}[^{}]*)*\}` of the JSON pattern starting at a
position where the next character is a brace (or the end): consume
`{nonbraces}` groups with trailing non-braces while the next character is
`{`, then require the closing `}`.  The star cannot backtrack usefully:
reducing a `[^{}]*` run puts a non-brace where `}` is required. -/
def jsonIters (nonBrace : Char → Bool) : Nat → List Char → Option Nat
  | 0, _ => none
  | fuel + 1, l =>
    match l with
    | '\x7d' :: _ => some 1
    | '\x7b' :: rest =>
      let inner := rest.takeWhile nonBrace
      (match rest.drop inner.length with
       | '\x7d' :: rest2 =>
         let trail := rest2.takeWhile nonBrace
         (jsonIters nonBrace fuel (rest2.drop trail.length)).map
           fun n => 1 + inner.length + 1 + trail.length + n
       | _ => none)
    | _ => none

/-- Match of `\{[^{}]*(?:\{[^{}]*\}[^{}]*)*\}` at the head of `l` (its
length). -/
def parseJsonAt (fuel : Nat) (l : List Char) : Option Nat :=
  let nonBrace : Char → Bool := fun c => c ≠ '\x7b' && c ≠ '\x7d'
  match l with
  | '\x7b' :: rest =>
    let a := rest.takeWhile nonBrace
    (jsonIters nonBrace fuel (rest.drop a.length)).map fun n => 1 + a.length + n
  | _ => none

/-- Scan `re.findall` of the JSON pattern: the non-overlapping full
matches. -/
def findJsonMatches : Nat → List Char → List (List Char)
  | 0, _ => []
  | _ + 1, [] => []
  | fuel + 1, c :: cs =>
    match parseJsonAt (fuel + 1) (c :: cs) with
    | some n => (c :: cs).take n :: findJsonMatches fuel ((c :: cs).drop n)
    | none => findJsonMatches fuel cs

/-- Substitution `re.sub(r'#[^\n]*\n', '\n', content)`: a `#` and everything
up to and including the next newline become a newline; a final `#…` without
a newline does not match. -/
def subHashComments : Nat → List Char → List Char
  | 0, l => l
  | _ + 1, [] => []
  | fuel + 1, '#' :: cs =>
    let w := cs.takeWhile (· ≠ '\n')
    (match cs.drop w.length with
     | '\n' :: rest => '\n' :: subHashComments fuel rest
     | _ => '#' :: subHashComments fuel cs)
  | fuel + 1, c :: cs => c :: subHashComments fuel cs

/-- Substitution `re.sub(r'//[^\n]*\n', '\n', content)`. -/
def subSlashComments : Nat → List Char → List Char
  | 0, l => l
  | _ + 1, [] => []
  | fuel + 1, '/' :: '/' :: cs =>
    let w := cs.takeWhile (· ≠ '\n')
    (match cs.drop w.length with
     | '\n' :: rest => '\n' :: subSlashComments fuel rest
     | _ => '/' :: subSlashComments fuel ('/' :: cs))
  | fuel + 1, c :: cs => c :: subSlashComments fuel cs

/-- Offset just past the first `*/` in `l`, if any (the lazy `.*?` of the
block-comment pattern stops at the first closer). -/
def findClose : Nat → List Char → Option Nat
  | 0, _ => none
  | _ + 1, [] => none
  | _ + 1, '*' :: '/' :: _ => some 2
  | fuel + 1, _ :: rest => (findClose fuel rest).map (· + 1)

/-- Substitution `re.sub(r'/\*.*?\*/', '', content, flags=re.DOTALL)`. -/
def subBlockComments : Nat → List Char → List Char
  | 0, l => l
  | _ + 1, [] => []
  | fuel + 1, '/' :: '*' :: cs =>
    (match findClose (cs.length + 1) cs with
     | some n => subBlockComments fuel (cs.drop n)
     | none => '/' :: subBlockComments fuel ('*' :: cs))
  | fuel + 1, c :: cs => c :: subBlockComments fuel cs

/-- List of character lists for a list of string literals. -/
def strAlts (ss : List String) : List (List Char) := ss.map String.data

/-- The `condensation_patterns` table of `semantic_condensation`:
alternatives of each verbose pattern, with the concise replacement. -/
def condensationTable : List (List (List Char) × List Char) :=
  [ (strAlts ["in order to", "so as to"], ("to" : String).data),
    (strAlts ["due to the fact that", "because of the fact that"],
      ("because" : String).data),
    (strAlts ["at this point in time", "at the present time"],
      ("now" : String).data),
    (strAlts ["for the purpose of"], ("for" : String).data),
    (strAlts ["with regard to", "with respect to", "in relation to"],
      ("regarding" : String).data),
    (strAlts ["it should be noted that", "it is important to note that"],
      ("note:" : String).data),
    (strAlts ["as a result of"], ("from" : String).data),
    (strAlts ["in the event that"], ("if" : String).data),
    (strAlts ["make use of"], ("use" : String).data),
    (strAlts ["provide assistance to"], ("help" : String).data) ]

/-- The `filler_words` alternatives of `semantic_condensation`. -/
def fillerAlts : List (List Char) :=
  strAlts ["actually", "basically", "essentially", "literally", "obviously",
    "really", "very", "quite", "rather", "pretty", "just", "simply",
    "merely", "only"]

/-- The example-signal alternatives of `aggressive_compression`. -/
def exampleAlts : List (List Char) :=
  strAlts ["example", "e.g.", "for instance", "such as"]

/-- The `abbreviations` table of `aggressive_compression`. -/
def abbreviationTable : List (List Char × List Char) :=
  [ (("function" : String).data, ("fn" : String).data),
    (("parameter" : String).data, ("param" : String).data),
    (("argument" : String).data, ("arg" : String).data),
    (("variable" : String).data, ("var" : String).data),
    (("configuration" : String).data, ("config" : String).data),
    (("environment" : String).data, ("env" : String).data),
    (("directory" : String).data, ("dir" : String).data),
    (("execute" : String).data, ("exec" : String).data),
    (("initialization" : String).data, ("init" : String).data),
    (("optimization" : String).data, ("opt" : String).data) ]

/-- Strategy `compress_whitespace`: normalise line endings, collapse runs of
three or more newlines to a blank line, strip trailing whitespace per line,
then collapse space/tab runs to single spaces outside fenced code blocks
(blocks are replaced by the placeholder `<<<CODE_BLOCK>>>` and re-inserted
with `str.replace(…, 1)` each).  Preservation is fixed at `1.0`. -/
def compress_whitespace (s : String) : String × ℚ :=
  let c1 := subCrlf s.data
  let c2 := subBlankRuns ('\n' :: ['\n']) c1
  let c3 := joinNl ((splitNl c2).map rstripWs)
  let p := scanBlocksGo (c3.length + 1) c3
  let c4 := collapseHoriz p.1
  let c5 := p.2.foldl
    (fun acc b => replaceFirst ("<<<CODE_BLOCK>>>" : String).data b (acc.length + 1) acc)
    c4
  (String.mk c5, 1)

/-- Reference tag `[REF_n]`. -/
def refTag (n : Nat) : List Char :=
  ("[REF_" : String).data ++ natStr n ++ (("]" : String).data)

/-- First phase of `eliminate_redundancy`: lines whose stripped form occurs
more than twice get a `[REF_n]: line` definition at their first occurrence
and an indented `[REF_n]` tag afterwards; `refs` is the `line_refs` dict in
insertion order and `counter` the `ref_counter`. -/
def phase1Go (freq : List Char → Nat) :
    List (List Char) → List (List Char × Nat) → Nat → List (List Char)
  | [], _, _ => []
  | line :: rest, refs, counter =>
    let clean := stripWs line
    if clean ≠ [] ∧ 2 < freq clean then
      match refs.lookup clean with
      | none =>
        (refTag counter ++ (": " : String).data ++ line) ::
          phase1Go freq rest (refs ++ [(clean, counter)]) (counter + 1)
      | some n =>
        (List.replicate (leadingWsCount line) ' ' ++ refTag n) ::
          phase1Go freq rest refs counter
    else line :: phase1Go freq rest refs counter

/-- Strategy `eliminate_redundancy`: the reference-substitution phase, then
one `re.sub` pass of each catalog pattern in order, each with the
replacement `m.group(1) if m.lastindex and m.lastindex >= 1 else ''`
(pattern 1 has no groups, so its matches are deleted; patterns 2–5 keep
group 1).  Preservation is fixed at `0.99`. -/
def eliminate_redundancy (s : String) : String × ℚ :=
  let lines := splitNl s.data
  let cleans := lines.map stripWs
  let freq : List Char → Nat := fun c => cleans.count c
  let c1 := joinNl (phase1Go freq lines [] 1)
  let c2 := subBlankRuns [] c1
  let c3 := subDoubleWs c2
  let c4 := scanSub tryMatchP3 (c3.length + 1) c3
  let c5 := scanSub tryMatchP4 (c4.length + 1) c4
  let c6 := scanSub tryMatchP5 (c5.length + 1) c5
  (String.mk c6, 99 / 100)

/-- Python `line.strip().startswith(('*', '-', '1.', '2.', '3.'))`. -/
def isListLine (l : List Char) : Bool :=
  (strAlts ["*", "-", "1.", "2.", "3."]).any (·.isPrefixOf (stripWs l))

/-- Python `any(re.search(pattern, line) for pattern in preserve_patterns)`. -/
def isTechnicalLine (l : List Char) : Bool :=
  hasFenceGo (l.length + 1) l || hasInlineGo (l.length + 1) l ||
    hasUrlGo (l.length + 1) l || hasConstGo (l.length + 1) l ||
    hasCamelGo (l.length + 1) none l || hasVarSubGo (l.length + 1) l

/-- Text transform of strategy `semantic_condensation`: the verbose-phrase
substitutions, then per line (when the line matches no preserve pattern and
is not a list item) the filler-word removal and whitespace cleanup. -/
def semanticTransform (l : List Char) : List Char :=
  joinNl ((splitNl (condensationTable.foldl (fun acc p => subAlts p.1 p.2 acc) l)).map
    fun line =>
      if !isTechnicalLine line && !isListLine line then
        collapseAllWs (subAlts fillerAlts [] line)
      else line)

/-- Strategy `semantic_condensation`, assembled: the preservation factor is
`max(0.95, 1.0 - (changes_made / len(original_content)) * 2)`; on empty
input the division raises `ZeroDivisionError`, modelled as `none`. -/
def semantic_condensation (s : String) : Option (String × ℚ) :=
  let out := semanticTransform s.data
  if s.length = 0 then none
  else some (String.mk out,
    max (19 / 20) (1 - (((s.length : ℚ) - out.length) / s.length) * 2))

/-- Abstraction tag `[FUNC_i]`. -/
def funcTag (i : Nat) : List Char :=
  ("[FUNC_" : String).data ++ natStr i ++ (("]" : String).data)

/-- Abstraction tag `[JSON_i]`. -/
def jsonTag (i : Nat) : List Char :=
  ("[JSON_" : String).data ++ natStr i ++ (("]" : String).data)

/-- Strategy `pattern_abstraction`: function-pattern matches (`re.findall`
returns group 1, the *name*, so the 200-character test applies to the
name), JSON-like blocks over 300 characters; each abstracted occurrence is
replaced everywhere and an abstraction dictionary is appended when any
abstraction happened.  Preservation is fixed at `0.98`. -/
def pattern_abstraction (s : String) : String × ℚ :=
  let names := findFuncNames (s.data.length + 1) s.data
  let funcAbs := (names.enum.filter fun p => 200 < p.2.length).map
    fun p => (p.2, funcTag p.1)
  let jsons := findJsonMatches (s.data.length + 1) s.data
  let jsonAbs := (jsons.enum.filter fun p => 300 < p.2.length).map
    fun p => (p.2, jsonTag p.1)
  let abs := funcAbs ++ jsonAbs
  let c1 := abs.foldl (fun acc p => replaceAll p.1 p.2 (acc.length + 1) acc) s.data
  let out :=
    if abs.isEmpty then c1
    else
      c1 ++ ("\n\n--- Pattern Abstractions ---\n" : String).data ++
        abs.foldl
          (fun acc p =>
            acc ++ p.2 ++ (": " : String).data ++ p.1.take 100 ++
              (if 100 < p.1.length then ("..." : String).data else []) ++ ['\n'])
          []
  (String.mk out, 98 / 100)

/-- Helper of `context_deduplication`: `re.split(r'\n\s*\n', content)`.
A separator match lies inside one maximal whitespace run and (greedy `\s*`
backtracking to the last newline) extends from the first to the last
newline of a run containing at least two; the whitespace before the first
and after the last newline stays with the neighbouring pieces. -/
def splitBlocksGo : Nat → List Char → List Char → List (List Char)
  | 0, acc, l => [acc.reverse ++ l]
  | _ + 1, acc, [] => [acc.reverse]
  | fuel + 1, acc, c :: cs =>
    if isSpaceChar c then
      let run := (c :: cs).takeWhile isSpaceChar
      let rest := (c :: cs).dropWhile isSpaceChar
      if 2 ≤ run.count '\n' then
        (acc.reverse ++ run.takeWhile (· ≠ '\n')) ::
          splitBlocksGo fuel (run.reverse.takeWhile (· ≠ '\n')) rest
      else splitBlocksGo fuel (run.reverse ++ acc) rest
    else splitBlocksGo fuel (c :: acc) cs

/-- Method `calculate_similarity`: Jaccard similarity of the lowercased
word-token sets, `0.0` when either set is empty. -/
def calculate_similarity (t1 t2 : List Char) : ℚ :=
  let w1 := (wordRuns t1).eraseDups
  let w2 := (wordRuns t2).eraseDups
  if w1.isEmpty || w2.isEmpty then 0
  else
    let uni := (w1 ++ w2).eraseDups.length
    if uni = 0 then 0 else ((w1.filter (w2.contains ·)).length : ℚ) / uni

/-- Strategy `context_deduplication`: split into blocks on blank-line
boundaries, keep a stripped non-empty block only when its similarity to
every previously kept block is at most `0.8`, join kept blocks with blank
lines.  Preservation is `min(0.99, kept/original)` over the raw split
count (`1.0` in place of the ratio when the split is empty, which cannot
happen: `re.split` always returns at least one piece). -/
def context_deduplication (s : String) : String × ℚ :=
  let blocks := splitBlocksGo (s.data.length + 1) [] s.data
  let kept := blocks.foldl
    (fun kept b =>
      let b2 := stripWs b
      if b2.isEmpty then kept
      else if kept.any fun u => 8 / 10 < calculate_similarity b2 u then kept
      else kept ++ [b2])
    []
  let pres : ℚ :=
    min (99 / 100)
      (if 0 < blocks.length then (kept.length : ℚ) / blocks.length else 1)
  (String.mk (List.intercalate ('\n' :: ['\n']) kept), pres)

/-- Helper of `aggressive_compression`: keep only the first two lines that
contain an example-signalling phrase (`example_count` capping). -/
def exampleFilter : List (List Char) → Nat → List (List Char)
  | [], _ => []
  | l :: ls, count =>
    if searchAlts exampleAlts l then
      if count + 1 ≤ 2 then l :: exampleFilter ls (count + 1)
      else exampleFilter ls (count + 1)
    else l :: exampleFilter ls count

/-- Strategy `aggressive_compression`: strip `#`, `//` and `/* */`
comments, cap example lines at two, apply the abbreviation table
(case-insensitive full-word substitutions).  Preservation is fixed at
`0.90`. -/
def aggressive_compression (s : String) : String × ℚ :=
  let c1 := subHashComments (s.data.length + 1) s.data
  let c2 := subSlashComments (c1.length + 1) c1
  let c3 := subBlockComments (c2.length + 1) c2
  let c4 := joinNl (exampleFilter (splitNl c3) 0)
  let c5 := abbreviationTable.foldl (fun acc p => subAlts [p.1] p.2 acc) c4
  (String.mk c5, 9 / 10)

/-- UTF-8 bytes of one character (Python `str.encode()`). -/
def utf8Char (c : Char) : List Nat :=
  let n := c.toNat
  if n < 128 then [n]
  else if n < 2048 then [192 + n / 64, 128 + n % 64]
  else if n < 65536 then [224 + n / 4096, 128 + n / 64 % 64, 128 + n % 64]
  else [240 + n / 262144, 128 + n / 4096 % 64, 128 + n / 64 % 64, 128 + n % 64]

/-- UTF-8 bytes of a string. -/
def utf8Bytes (s : String) : List Nat := (s.data.map utf8Char).flatten

/-- MD5 per-round shift amounts. -/
def md5S : List Nat :=
  [7, 12, 17, 22, 7, 12, 17, 22, 7, 12, 17, 22, 7, 12, 17, 22,
   5, 9, 14, 20, 5, 9, 14, 20, 5, 9, 14, 20, 5, 9, 14, 20,
   4, 11, 16, 23, 4, 11, 16, 23, 4, 11, 16, 23, 4, 11, 16, 23,
   6, 10, 15, 21, 6, 10, 15, 21, 6, 10, 15, 21, 6, 10, 15, 21]

/-- MD5 round constants `K[i] = floor(2^32 * |sin(i + 1)|)`. -/
def md5K : List Nat :=
  [0xd76aa478, 0xe8c7b756, 0x242070db, 0xc1bdceee,
   0xf57c0faf, 0x4787c62a, 0xa8304613, 0xfd469501,
   0x698098d8, 0x8b44f7af, 0xffff5bb1, 0x895cd7be,
   0x6b901122, 0xfd987193, 0xa679438e, 0x49b40821,
   0xf61e2562, 0xc040b340, 0x265e5a51, 0xe9b6c7aa,
   0xd62f105d, 0x02441453, 0xd8a1e681, 0xe7d3fbc8,
   0x21e1cde6, 0xc33707d6, 0xf4d50d87, 0x455a14ed,
   0xa9e3e905, 0xfcefa3f8, 0x676f02d9, 0x8d2a4c8a,
   0xfffa3942, 0x8771f681, 0x6d9d6122, 0xfde5380c,
   0xa4beea44, 0x4bdecfa9, 0xf6bb4b60, 0xbebfbc70,
   0x289b7ec6, 0xeaa127fa, 0xd4ef3085, 0x04881d05,
   0xd9d4d039, 0xe6db99e5, 0x1fa27cf8, 0xc4ac5665,
   0xf4292244, 0x432aff97, 0xab9423a7, 0xfc93a039,
   0x655b59c3, 0x8f0ccc92, 0xffeff47d, 0x85845dd1,
   0x6fa87e4f, 0xfe2ce6e0, 0xa3014314, 0x4e0811a1,
   0xf7537e82, 0xbd3af235, 0x2ad7d2bb, 0xeb86d391]

/-- Rotate a 32-bit word left by `s` bits. -/
def rotl32 (x s : Nat) : Nat :=
  (x <<< s ||| x >>> (32 - s)) % 4294967296

/-- MD5 padding: `0x80`, zeros to 56 mod 64, then the bit length as eight
little-endian bytes. -/
def md5Pad (msg : List Nat) : List Nat :=
  let len := msg.length
  let zeros := (119 - len % 64) % 64
  let bitLen := len * 8 % 18446744073709551616
  msg ++ 128 :: List.replicate zeros 0 ++
    ((List.range 8).map fun i => bitLen >>> (8 * i) % 256)

/-- Split into 64-byte chunks. -/
def chunks64 : Nat → List Nat → List (List Nat)
  | 0, _ => []
  | _ + 1, [] => []
  | fuel + 1, l => l.take 64 :: chunks64 fuel (l.drop 64)

/-- Four little-endian bytes at a time into 32-bit words. -/
def leWords : List Nat → List Nat
  | b0 :: b1 :: b2 :: b3 :: rest =>
    (b0 + 256 * b1 + 65536 * b2 + 16777216 * b3) :: leWords rest
  | _ => []

/-- One MD5 round step. -/
def md5Step (m : List Nat) (st : Nat × Nat × Nat × Nat) (i : Nat) :
    Nat × Nat × Nat × Nat :=
  let a := st.1
  let b := st.2.1
  let c := st.2.2.1
  let d := st.2.2.2
  let mask := 4294967295
  let fg : Nat × Nat :=
    if i < 16 then ((b &&& c) ||| ((mask ^^^ b) &&& d), i)
    else if i < 32 then ((d &&& b) ||| ((mask ^^^ d) &&& c), (5 * i + 1) % 16)
    else if i < 48 then (b ^^^ c ^^^ d, (3 * i + 5) % 16)
    else (c ^^^ (b ||| (mask ^^^ d)), 7 * i % 16)
  let f := (fg.1 + a + md5K.getD i 0 + m.getD fg.2 0) % 4294967296
  (d, (b + rotl32 f (md5S.getD i 0)) % 4294967296, b, c)

/-- Process one 64-byte chunk. -/
def md5Chunk (st : Nat × Nat × Nat × Nat) (chunk : List Nat) :
    Nat × Nat × Nat × Nat :=
  let m := leWords chunk
  let r := (List.range 64).foldl (md5Step m) st
  ((st.1 + r.1) % 4294967296, (st.2.1 + r.2.1) % 4294967296,
   (st.2.2.1 + r.2.2.1) % 4294967296, (st.2.2.2 + r.2.2.2) % 4294967296)

/-- Lowercase hex digit. -/
def hexDigit (d : Nat) : Char :=
  if d < 10 then Char.ofNat (48 + d) else Char.ofNat (87 + d)

/-- Eight lowercase hex characters of a 32-bit word, little-endian byte
order (MD5 digest order). -/
def hexWordLe (w : Nat) : List Char :=
  (List.range 4).foldl
    (fun acc i =>
      let b := w >>> (8 * i) % 256
      acc ++ [hexDigit (b / 16), hexDigit (b % 16)])
    []

/-- Python `hashlib.md5(content.encode()).hexdigest()`. -/
def md5Hex (s : String) : String :=
  let bytes := md5Pad (utf8Bytes s)
  let st := (chunks64 (bytes.length + 1) bytes).foldl md5Chunk
    (1732584193, 4023233417, 2562383102, 271733878)
  String.mk (hexWordLe st.1 ++ hexWordLe st.2.1 ++ hexWordLe st.2.2.1 ++
    hexWordLe st.2.2.2)

-- Known-answer checks validating the MD5 embedding.
set_option maxRecDepth 100000 in
example : md5Hex "" = "d41d8cd98f00b204e9800998ecf8427e" := by decide

set_option maxRecDepth 100000 in
example : md5Hex "abc" = "900150983cd24fb0d6963f7d28e17f72" := by decide

/-- The six strategy names of the catalog. -/
inductive StratName where
  | whitespace_optimization
  | redundancy_elimination
  | semantic_condensation
  | pattern_abstraction
  | context_deduplication
  | aggressive_compression
deriving DecidableEq, Repr

/-- Python-side name of each strategy. -/
def StratName.pyName : StratName → String
  | .whitespace_optimization => "whitespace_optimization"
  | .redundancy_elimination => "redundancy_elimination"
  | .semantic_condensation => "semantic_condensation"
  | .pattern_abstraction => "pattern_abstraction"
  | .context_deduplication => "context_deduplication"
  | .aggressive_compression => "aggressive_compression"

/-- Dispatch of the `if strategy == …` chain in the pipeline loop of
`compress_content`.  `semantic_condensation` is the only strategy whose
body can raise (`ZeroDivisionError` on empty input), hence the only `none`
case. -/
def applyStrategy : StratName → String → Option (String × ℚ)
  | .whitespace_optimization, s => some (compress_whitespace s)
  | .redundancy_elimination, s => some (eliminate_redundancy s)
  | .semantic_condensation, s => semantic_condensation s
  | .pattern_abstraction, s => some (pattern_abstraction s)
  | .context_deduplication, s => some (context_deduplication s)
  | .aggressive_compression, s => some (aggressive_compression s)

/-- Strategy selection of `compress_content`: aggressive mode has its fixed
list, otherwise the `target_reduction` threshold ladder. -/
def selectStrategies (target : ℚ) (aggressive : Bool) : List StratName :=
  if !aggressive then
    if target ≤ 1 / 10 then [.whitespace_optimization]
    else if target ≤ 2 / 10 then
      [.whitespace_optimization, .redundancy_elimination]
    else if target ≤ 3 / 10 then
      [.whitespace_optimization, .redundancy_elimination,
       .semantic_condensation]
    else
      [.whitespace_optimization, .redundancy_elimination,
       .semantic_condensation, .pattern_abstraction]
  else
    [.aggressive_compression, .context_deduplication,
     .semantic_condensation, .whitespace_optimization]

/-- The strategy loop of `compress_content` over the working content `c`,
running preservation `p` and `method_used` list `used`.  The timeout check
`(datetime.now() - start_time).seconds >= max_time` is modelled with zero
elapsed seconds, i.e. `0 ≥ maxTime`.  A raising strategy (`none`) is
skipped by the `except` handler with `c`, `p`, `used` untouched.  After a
successful application the preservation is multiplied, the name appended,
and the loop breaks when `1 - len/original_size ≥ target`; when
`origSize = 0` that comparison raises `ZeroDivisionError`, which the same
handler turns into a plain continue (the state updates already happened).
`scores` is ghost instrumentation recording the successive values of the
running preservation score, one entry per applied strategy; the Python
code does not store it and no other component reads it. -/
def pipelineGo (origSize : Nat) (target : ℚ) (maxTime : ℤ) :
    List StratName → String → ℚ → List String → List ℚ →
      String × ℚ × List String × List ℚ
  | [], c, p, used, scores => (c, p, used, scores)
  | s :: rest, c, p, used, scores =>
    if maxTime ≤ 0 then (c, p, used, scores)
    else
      match applyStrategy s c with
      | none => pipelineGo origSize target maxTime rest c p used scores
      | some (c2, f) =>
        let p2 := p * f
        let used2 := used ++ [s.pyName]
        let scores2 := scores ++ [p2]
        if origSize ≠ 0 ∧ target ≤ 1 - (c2.length : ℚ) / origSize then
          (c2, p2, used2, scores2)
        else pipelineGo origSize target maxTime rest c2 p2 used2 scores2

/-- The pipeline of `compress_content` on fresh content. -/
def runPipeline (content : String) (target : ℚ) (maxTime : ℤ)
    (aggressive : Bool) : String × ℚ × List String × List ℚ :=
  pipelineGo content.length target maxTime
    (selectStrategies target aggressive) content 1 [] []

/-- Dataclass `CompressionResult` (floats as `ℚ`; `processing_time` is the
modelled zero wall-clock time). -/
structure CompressionResult where
  original_size : Nat
  compressed_size : Nat
  tokens_saved : Int
  compression_ratio : ℚ
  preservation_score : ℚ
  processing_time : ℚ
  method_used : String
  content_hash : String
deriving DecidableEq, Repr

/-- The process-wide `compression_cache` dict, as an association list from
the modelled cache key to the stored result. -/
abbrev Cache := List ((String × ℚ × Bool) × CompressionResult)

/-- Dict membership / indexing `self.compression_cache[cache_key]`. -/
def cacheFind (k : String × ℚ × Bool) (cache : Cache) :
    Option CompressionResult :=
  (cache.find? fun e => decide (e.1 = k)).map (·.2)

/-- Method `compress_content(content, target_reduction, max_time,
aggressive_mode)` (Python defaults `0.25`, `30`, `False`), with the cache
threaded explicitly: returns the result together with the updated cache.
On a hit the stored result is returned and the cache is unchanged; on a
miss the pipeline runs and the result is stored under the key
`(md5(content), target_reduction, aggressive_mode)`. -/
def compress_content (cache : Cache) (content : String) (target : ℚ)
    (maxTime : ℤ) (aggressive : Bool) : CompressionResult × Cache :=
  let origSize := content.length
  let origTokens := origSize / 4
  let hash := md5Hex content
  let key : String × ℚ × Bool := (hash, target, aggressive)
  match cacheFind key cache with
  | some r => (r, cache)
  | none =>
    let out := pipelineGo origSize target maxTime
      (selectStrategies target aggressive) content 1 [] []
    let csize := out.1.length
    let result : CompressionResult :=
      { original_size := origSize
        compressed_size := csize
        tokens_saved := (origTokens : Int) - (csize / 4 : Nat)
        compression_ratio := if 0 < origSize then (csize : ℚ) / origSize else 1
        preservation_score := out.2.1
        processing_time := 0
        method_used := String.intercalate ", " out.2.2.1
        content_hash := hash }
    (result, (key, result) :: cache)

/-! ## Helper lemmas -/

/-- A fresh entry is found by the very key it was stored under. -/
theorem cacheFind_cons_self (k : String × ℚ × Bool) (r : CompressionResult)
    (cache : Cache) : cacheFind k ((k, r) :: cache) = some r := by
  simp [cacheFind, List.find?]

/-- After any call of `compress_content`, the returned result is in the
returned cache under the call's key, and a further call with the same
`(content, target_reduction, aggressive_mode)` — whatever its `max_time` —
returns exactly that stored result with the cache unchanged. -/
theorem compress_content_second_call (cache : Cache) (content : String)
    (t : ℚ) (mt mt2 : ℤ) (b : Bool) :
    cacheFind (md5Hex content, t, b) (compress_content cache content t mt b).2 =
      some (compress_content cache content t mt b).1 ∧
    compress_content (compress_content cache content t mt b).2 content t mt2 b =
      compress_content cache content t mt b := by
  unfold compress_content
  cases h : cacheFind (md5Hex content, t, b) cache with
  | some r => simp [h]
  | none => simp [h, cacheFind_cons_self]

/-! ## Claims -/

/-- C4: strategy selection is a deterministic function of
`(target_reduction, aggressive_mode)`: aggressive mode yields the fixed
aggressive list, otherwise the threshold ladder over `target_reduction`
applies, and the three conservative tiers are strict prefix extensions of
one another. -/
theorem claim_C4_selection (t : ℚ) (b : Bool) :
    selectStrategies t b =
      (if b then
        [StratName.aggressive_compression, StratName.context_deduplication,
         StratName.semantic_condensation, StratName.whitespace_optimization]
      else if t ≤ 1 / 10 then [StratName.whitespace_optimization]
      else if t ≤ 2 / 10 then
        [StratName.whitespace_optimization, StratName.redundancy_elimination]
      else if t ≤ 3 / 10 then
        [StratName.whitespace_optimization, StratName.redundancy_elimination,
         StratName.semantic_condensation]
      else
        [StratName.whitespace_optimization, StratName.redundancy_elimination,
         StratName.semantic_condensation, StratName.pattern_abstraction]) ∧
    ([StratName.whitespace_optimization] <+:
      [StratName.whitespace_optimization, StratName.redundancy_elimination]) ∧
    ([StratName.whitespace_optimization, StratName.redundancy_elimination] <+:
      [StratName.whitespace_optimization, StratName.redundancy_elimination,
       StratName.semantic_condensation]) ∧
    ([StratName.whitespace_optimization, StratName.redundancy_elimination,
      StratName.semantic_condensation] <+:
      [StratName.whitespace_optimization, StratName.redundancy_elimination,
       StratName.semantic_condensation, StratName.pattern_abstraction]) ∧
    ([StratName.whitespace_optimization] ≠
      [StratName.whitespace_optimization, StratName.redundancy_elimination]) ∧
    ([StratName.whitespace_optimization, StratName.redundancy_elimination] ≠
      [StratName.whitespace_optimization, StratName.redundancy_elimination,
       StratName.semantic_condensation]) ∧
    ([StratName.whitespace_optimization, StratName.redundancy_elimination,
      StratName.semantic_condensation] ≠
      [StratName.whitespace_optimization, StratName.redundancy_elimination,
       StratName.semantic_condensation, StratName.pattern_abstraction]) := by
  refine ⟨?_, ⟨[StratName.redundancy_elimination], rfl⟩,
    ⟨[StratName.semantic_condensation], rfl⟩,
    ⟨[StratName.pattern_abstraction], rfl⟩, by decide, by decide, by decide⟩
  cases b <;> simp [selectStrategies]

/-- C5: two calls of `compress_content` with identical content, target
reduction and aggressive mode return an identical `CompressionResult`
(hence the same `content_hash`, `method_used` and every other field), the
second call returning the entry the first call left in the cache, with the
cache unchanged. -/
theorem claim_C5_cache_determinism (cache : Cache) (content : String)
    (t : ℚ) (mt : ℤ) (b : Bool) :
    compress_content (compress_content cache content t mt b).2 content t mt b =
      compress_content cache content t mt b ∧
    cacheFind (md5Hex content, t, b) (compress_content cache content t mt b).2 =
      some (compress_content cache content t mt b).1 :=
  ⟨(compress_content_second_call cache content t mt mt b).2,
   (compress_content_second_call cache content t mt mt b).1⟩

/-- C6: the cache key is only `(md5(content), target_reduction,
aggressive_mode)`: a second call that agrees on those but passes any other
`max_time` still returns exactly the result stored by the first call (and
leaves the cache unchanged), so `max_time` has no influence once the entry
exists. -/
theorem claim_C6_key_ignores_max_time (cache : Cache) (content : String)
    (t : ℚ) (mt mt2 : ℤ) (b : Bool) :
    compress_content (compress_content cache content t mt b).2 content t mt2 b =
      compress_content cache content t mt b ∧
    cacheFind (md5Hex content, t, b) (compress_content cache content t mt b).2 =
      some (compress_content cache content t mt b).1 :=
  ⟨(compress_content_second_call cache content t mt mt2 b).2,
   (compress_content_second_call cache content t mt mt2 b).1⟩

end SemCompress

namespace SemCompress

/-- C1 (amended): on a fresh cache the `compression_ratio` of the result of
`compress_content` is nonnegative and equals `compressed_size /
original_size` when `original_size > 0` (this quotient can be `0` when the
output is empty and can exceed `1` when the output grows), and equals `1.0`
when `original_size = 0`. -/
theorem claim_C1_ratio (content : String) (t : ℚ) (mt : ℤ) (b : Bool) :
    0 ≤ CompressionResult.compression_ratio (compress_content [] content t mt b).1 ∧
    CompressionResult.compression_ratio (compress_content [] content t mt b).1 =
      (if content.length = 0 then 1
       else ((compress_content [] content t mt b).1.compressed_size : ℚ) /
         content.length) := by
  have hr : CompressionResult.compression_ratio (compress_content [] content t mt b).1 =
      if 0 < content.length then
        ((compress_content [] content t mt b).1.compressed_size : ℚ) / content.length
      else 1 := rfl
  constructor
  · rw [hr]
    split
    · exact div_nonneg (Nat.cast_nonneg _) (Nat.cast_nonneg _)
    · norm_num
  · rw [hr]
    rcases Nat.eq_zero_or_pos content.length with h | h
    · simp [h]
    · have h2 : content.length ≠ 0 := Nat.pos_iff_ne_zero.mp h
      simp [h, h2]

set_option maxRecDepth 1000000 in
unseal Rat.mul Rat.add Rat.sub Rat.inv in
/-- C1 (counterexample): on the one-character content `" "` with target
reduction `0.10` the pipeline produces the empty string, so
`compression_ratio = 0/1 = 0`, refuting `compression_ratio > 0` for
`original_size > 0`. -/
theorem claim_C1_cx :
    ¬ (0 < CompressionResult.compression_ratio
        (compress_content [] " " (1 / 10) 30 false).1) := by
  decide

set_option maxRecDepth 1000000 in
unseal Rat.mul Rat.add Rat.sub Rat.inv in
/-- C7: on five occurrences of the line interleaved with unique lines that
match no redundancy-catalog pattern, `eliminate_redundancy` rewrites the
first occurrence to a tagged definition and occurrences 2–5 to the bare
`[REF_1]` tag, leaving the unique lines unchanged, with preservation
`0.99`. -/
theorem claim_C7_ref_substitution :
    eliminate_redundancy
      ("This configuration value must be set correctly\nalpha\nThis configuration value must be set correctly\nbravo\nThis configuration value must be set correctly\ncharlie\nThis configuration value must be set correctly\ndelta\nThis configuration value must be set correctly") =
    ("[REF_1]: This configuration value must be set correctly\nalpha\n[REF_1]\nbravo\n[REF_1]\ncharlie\n[REF_1]\ndelta\n[REF_1]", 99 / 100) := by
  decide

set_option maxRecDepth 1000000 in
/-- C8 (evaluation at the failing input): on content that contains the
literal placeholder `<<<CODE_BLOCK>>>` inside a code fence, the
`str.replace(…, 1)` restoration of `compress_whitespace` splices the second
code block into the first one, and the double space that the first
application keeps inside a fence lands outside every fence of the output,
so a second application collapses it: applying the strategy twice is not
byte-identical to applying it once. -/
theorem claim_C8_not_idempotent :
    (compress_whitespace "```x<<<CODE_BLOCK>>>y``` ```b  c```").1 =
      "```x```b  c```y``` <<<CODE_BLOCK>>>" ∧
    (compress_whitespace
        ((compress_whitespace "```x<<<CODE_BLOCK>>>y``` ```b  c```").1)).1 =
      "```x```b c```y``` <<<CODE_BLOCK>>>" ∧
    (compress_whitespace
        ((compress_whitespace "```x<<<CODE_BLOCK>>>y``` ```b  c```").1)).1 ≠
      (compress_whitespace "```x<<<CODE_BLOCK>>>y``` ```b  c```").1 := by
  refine ⟨by decide, by decide, ?_⟩
  decide

/-- Unfolding equation for one pipeline step. -/
theorem pipelineGo_cons (o : Nat) (t : ℚ) (m : ℤ) (s : StratName)
    (rest : List StratName) (c : String) (p : ℚ) (used : List String)
    (scores : List ℚ) :
    pipelineGo o t m (s :: rest) c p used scores =
      if m ≤ 0 then (c, p, used, scores)
      else
        match applyStrategy s c with
        | none => pipelineGo o t m rest c p used scores
        | some (c2, f) =>
          if o ≠ 0 ∧ t ≤ 1 - (c2.length : ℚ) / o then
            (c2, p * f, used ++ [s.pyName], scores ++ [p * f])
          else
            pipelineGo o t m rest c2 (p * f) (used ++ [s.pyName])
              (scores ++ [p * f]) := rfl

/-- Every name in the `method_used` output of the pipeline loop comes from
the incoming accumulator or from one of the remaining strategies. -/
theorem pipelineGo_methods_mem (o : Nat) (t : ℚ) (m : ℤ) :
    ∀ (strats : List StratName) (c : String) (p : ℚ) (used : List String)
      (scores : List ℚ) (x : String),
      x ∈ (pipelineGo o t m strats c p used scores).2.2.1 →
      x ∈ used ∨ x ∈ strats.map StratName.pyName := by
  intro strats
  induction strats with
  | nil =>
    intro c p used scores x hx
    exact Or.inl hx
  | cons s rest ih =>
    intro c p used scores x hx
    rw [pipelineGo_cons] at hx
    split at hx
    · exact Or.inl hx
    · rcases happ : applyStrategy s c with _ | ⟨c2, f⟩ <;> simp only [happ] at hx
      · rcases ih c p used scores x hx with h | h
        · exact Or.inl h
        · exact Or.inr (List.mem_cons_of_mem _ h)
      · split at hx
        · rcases List.mem_append.mp hx with h | h
          · exact Or.inl h
          · exact Or.inr (List.mem_cons.mpr (Or.inl (List.mem_singleton.mp h)))
        · rcases ih _ _ _ _ x hx with h | h
          · rcases List.mem_append.mp h with h1 | h1
            · exact Or.inl h1
            · exact Or.inr (List.mem_cons.mpr (Or.inl (List.mem_singleton.mp h1)))
          · exact Or.inr (List.mem_cons_of_mem _ h)

/-- C3: when a strategy raises (`applyStrategy … = none`, which the real
code reaches through `semantic_condensation` on empty working content),
the pipeline neither aborts nor changes state at that step: the loop over
`s :: rest` equals the loop over `rest` with the same working content,
preservation, `method_used` and score trace — and if the failing
strategy's name was not already recorded and does not recur among the
remaining strategies, it is absent from the final `method_used`. -/
theorem claim_C3_strategy_failure (o : Nat) (t : ℚ) (m : ℤ) (s : StratName)
    (rest : List StratName) (c : String) (p : ℚ) (used : List String)
    (scores : List ℚ) (hfail : applyStrategy s c = none) :
    pipelineGo o t m (s :: rest) c p used scores =
      pipelineGo o t m rest c p used scores ∧
    (s.pyName ∉ used → s.pyName ∉ rest.map StratName.pyName →
      s.pyName ∉ (pipelineGo o t m rest c p used scores).2.2.1) := by
  constructor
  · by_cases hm : m ≤ 0
    · cases rest with
      | nil => simp [pipelineGo, hm]
      | cons r rs => simp [pipelineGo, hm]
    · simp [pipelineGo, hm, hfail]
  · intro h1 h2 hmem
    rcases pipelineGo_methods_mem o t m rest c p used scores _ hmem with h | h
    · exact h1 h
    · exact h2 h

/-- C3 witness: `semantic_condensation` raises on empty content; the run
over `[semantic_condensation, whitespace_optimization]` equals the run
over `[whitespace_optimization]` alone, and `"semantic_condensation"` is
absent from the latter's `method_used`. -/
theorem claim_C3_witness :
    pipelineGo 0 (1 / 4) 30
        [StratName.semantic_condensation, StratName.whitespace_optimization]
        "" 1 [] [] =
      pipelineGo 0 (1 / 4) 30 [StratName.whitespace_optimization] "" 1 [] [] ∧
    "semantic_condensation" ∉
      (pipelineGo 0 (1 / 4) 30 [StratName.whitespace_optimization]
        "" 1 [] []).2.2.1 :=
  ⟨(claim_C3_strategy_failure 0 (1 / 4) 30 StratName.semantic_condensation
      [StratName.whitespace_optimization] "" 1 [] [] (by decide)).1,
   (claim_C3_strategy_failure 0 (1 / 4) 30 StratName.semantic_condensation
      [StratName.whitespace_optimization] "" 1 [] [] (by decide)).2
      (by decide) (by decide)⟩

end SemCompress

namespace SemCompress

/-- A successful case-insensitive prefix is no longer than the text. -/
theorem ciPrefix_length : ∀ (a l : List Char), ciPrefix a l = true →
    a.length ≤ l.length
  | [], _, _ => Nat.zero_le _
  | _ :: _, [], h => by simp [ciPrefix] at h
  | a :: as, c :: cs, h => by
    simp only [ciPrefix, Bool.and_eq_true] at h
    exact Nat.succ_le_succ (ciPrefix_length as cs h.2)

/-- A matched alternative belongs to the alternation and is a prefix of the
text. -/
theorem tryAlts_spec {alts : List (List Char)} {prev : Option Char}
    {l a : List Char} (h : tryAlts alts prev l = some a) :
    a ∈ alts ∧ a.length ≤ l.length := by
  unfold tryAlts at h
  split at h
  · refine ⟨List.mem_of_find?_eq_some h, ?_⟩
    have := List.find?_some h
    simp only [Bool.and_eq_true] at this
    exact ciPrefix_length _ _ this.1
  · exact absurd h (by simp)

/-- One alternation-substitution pass never lengthens the text when the
replacement is at most as long as every alternative. -/
theorem subAltsGo_length {alts : List (List Char)} {repl : List Char}
    (hrepl : ∀ x ∈ alts, repl.length ≤ x.length) :
    ∀ (fuel : Nat) (prev : Option Char) (l : List Char),
      (subAltsGo alts repl fuel prev l).length ≤ l.length
  | 0, _, _ => Nat.le_refl _
  | _ + 1, _, [] => Nat.le_refl _
  | fuel + 1, prev, c :: cs => by
    simp only [subAltsGo]
    cases h : tryAlts alts prev (c :: cs) with
    | none =>
      simpa using Nat.succ_le_succ (subAltsGo_length hrepl fuel (some c) cs)
    | some a =>
      obtain ⟨hmem, hlen⟩ := tryAlts_spec h
      have h1 : repl.length ≤ a.length := hrepl a hmem
      have h2 := subAltsGo_length hrepl fuel
        (((c :: cs).take a.length).getLast?) ((c :: cs).drop a.length)
      simp only [List.length_append, List.length_drop] at h2 ⊢
      omega

/-- Main lemma for `subAlts`. -/
theorem subAlts_length {alts : List (List Char)} {repl : List Char}
    (hrepl : ∀ x ∈ alts, repl.length ≤ x.length) (l : List Char) :
    (subAlts alts repl l).length ≤ l.length :=
  subAltsGo_length hrepl _ none l

/-- Run rewriting never lengthens the text when the transform does not. -/
theorem mapRunsGo_length {p : Char → Bool} {f : List Char → List Char}
    (hf : ∀ r, r ≠ [] → (f r).length ≤ r.length) :
    ∀ (l acc : List Char),
      (mapRunsGo p f acc l).length ≤ acc.length + l.length := by
  intro l
  induction l with
  | nil =>
    intro acc
    simp only [mapRunsGo]
    split
    · simp
    · next h =>
      have := hf acc.reverse (by simpa [List.isEmpty_iff] using h)
      simpa using this
  | cons c cs ih =>
    intro acc
    simp only [mapRunsGo]
    split
    · have := ih (c :: acc)
      simp only [List.length_cons] at this ⊢
      omega
    · have h2 := ih []
      simp only [List.length_nil, Nat.zero_add] at h2
      simp only [List.length_append, List.length_cons]
      split
      · next h =>
        have hacc : acc.length = 0 := by
          simp [List.isEmpty_iff.mp h]
        simp only [List.length_nil, hacc]
        omega
      · next h =>
        have h1 := hf acc.reverse (by simpa [List.isEmpty_iff] using h)
        simp only [List.length_reverse] at h1
        omega

/-- Length bound for `mapRuns`. -/
theorem mapRuns_length {p : Char → Bool} {f : List Char → List Char}
    (hf : ∀ r, r ≠ [] → (f r).length ≤ r.length) (l : List Char) :
    (mapRuns p f l).length ≤ l.length :=
  by simpa using mapRunsGo_length hf l []

/-- Whitespace collapse never lengthens a text. -/
theorem collapseAllWs_length (l : List Char) :
    (collapseAllWs l).length ≤ l.length := by
  refine mapRuns_length (fun r hr => ?_) l
  cases r with
  | nil => exact absurd rfl hr
  | cons x xs => simp

/-- The split is never the empty list. -/
theorem splitNl_ne_nil : ∀ l : List Char, splitNl l ≠ []
  | [] => by simp [splitNl]
  | c :: cs => by
    simp only [splitNl]
    split
    · simp
    · cases h : splitNl cs with
      | nil => simp
      | cons a as => simp

/-- Joining the split lines restores the text. -/
theorem joinNl_splitNl : ∀ l : List Char, joinNl (splitNl l) = l
  | [] => rfl
  | c :: cs => by
    simp only [splitNl]
    split
    · next hc =>
      cases h : splitNl cs with
      | nil => exact absurd h (splitNl_ne_nil cs)
      | cons a as =>
        have := joinNl_splitNl cs
        rw [h] at this
        subst hc
        simp [joinNl, this]
    · cases h : splitNl cs with
      | nil => exact absurd h (splitNl_ne_nil cs)
      | cons a as =>
        have := joinNl_splitNl cs
        rw [h] at this
        cases as with
        | nil => simp_all [joinNl]
        | cons b bs => simp_all [joinNl]

/-- Pointwise bounds on lines carry over to the joined text. -/
theorem joinNl_map_length {g : List Char → List Char}
    (hg : ∀ x, (g x).length ≤ x.length) :
    ∀ ls : List (List Char), (joinNl (ls.map g)).length ≤ (joinNl ls).length
  | [] => Nat.le_refl _
  | [x] => by simpa [joinNl] using hg x
  | x :: y :: rest => by
    have h1 := hg x
    have h2 := joinNl_map_length hg (y :: rest)
    simp only [List.map_cons] at h2
    simp only [List.map_cons, joinNl, List.length_append, List.length_cons]
    omega

end SemCompress

namespace SemCompress

/-- Every replacement of the condensation table is at most as long as each
of its alternatives. -/
theorem condensation_repl_le :
    ∀ p ∈ condensationTable, ∀ a ∈ p.1, p.2.length ≤ a.length := by decide

/-- Folding alternation substitutions with short replacements never
lengthens the text. -/
theorem condFold_length :
    ∀ (table : List (List (List Char) × List Char)) (l : List Char),
      (∀ p ∈ table, ∀ a ∈ p.1, p.2.length ≤ a.length) →
      (table.foldl (fun acc p => subAlts p.1 p.2 acc) l).length ≤ l.length
  | [], _, _ => Nat.le_refl _
  | p :: ps, l, h => by
    simp only [List.foldl_cons]
    exact Nat.le_trans
      (condFold_length ps _ fun q hq => h q (List.mem_cons_of_mem _ hq))
      (subAlts_length (h p (List.mem_cons_self p ps)) l)

/-- The per-line transform of `semantic_condensation` never lengthens a
line. -/
theorem semanticLine_length (line : List Char) :
    (if !isTechnicalLine line && !isListLine line then
        collapseAllWs (subAlts fillerAlts [] line)
      else line).length ≤ line.length := by
  split
  · exact Nat.le_trans (collapseAllWs_length _)
      (subAlts_length (fun x _ => Nat.zero_le _) line)
  · exact Nat.le_refl _

/-- The text transform of `semantic_condensation` never lengthens the
text. -/
theorem semanticTransform_length (l : List Char) :
    (semanticTransform l).length ≤ l.length := by
  unfold semanticTransform
  calc (joinNl ((splitNl
          (condensationTable.foldl (fun acc p => subAlts p.1 p.2 acc) l)).map
        _)).length
      ≤ (joinNl (splitNl
          (condensationTable.foldl (fun acc p => subAlts p.1 p.2 acc) l))).length :=
        joinNl_map_length semanticLine_length _
    _ = (condensationTable.foldl (fun acc p => subAlts p.1 p.2 acc) l).length := by
        rw [joinNl_splitNl]
    _ ≤ l.length := condFold_length _ _ condensation_repl_le

/-- The output of `semantic_condensation` is never longer than its input
(every substitution shortens or preserves). -/
theorem semantic_out_length {s out : String} {f : ℚ}
    (h : semantic_condensation s = some (out, f)) : out.length ≤ s.length := by
  unfold semantic_condensation at h
  split at h
  · exact absurd h (by simp)
  · have hinj := Option.some.inj h
    have ho : String.mk (semanticTransform s.data) = out := congrArg Prod.fst hinj
    have hl : out.length = (semanticTransform s.data).length := by
      rw [← ho]
      rfl
    rw [hl]
    exact semanticTransform_length s.data

end SemCompress

namespace SemCompress

/-- The preservation factor of `semantic_condensation`, when it returns,
lies in `[0.95, 1]`. -/
theorem semantic_factor_bounds {s out : String} {f : ℚ}
    (h : semantic_condensation s = some (out, f)) :
    19 / 20 ≤ f ∧ f ≤ 1 := by
  have hout := semantic_out_length h
  unfold semantic_condensation at h
  split at h
  · exact absurd h (by simp)
  · next hne =>
    have hinj := Option.some.inj h
    have hf : f = max (19 / 20)
        (1 - (((s.length : ℚ) - (semanticTransform s.data).length) / s.length) * 2) :=
      (congrArg Prod.snd hinj).symm
    have hpos : (0 : ℚ) < s.length := by
      have : 0 < s.length := Nat.pos_of_ne_zero hne
      exact_mod_cast this
    have hnum : (0 : ℚ) ≤ (s.length : ℚ) - (semanticTransform s.data).length := by
      have : ((semanticTransform s.data).length : ℚ) ≤ (s.length : ℚ) := by
        exact_mod_cast semanticTransform_length s.data
      linarith
    constructor
    · rw [hf]; exact le_max_left _ _
    · rw [hf]
      refine max_le (by norm_num) ?_
      have hq : 0 ≤ (((s.length : ℚ) - (semanticTransform s.data).length) / s.length) * 2 :=
        mul_nonneg (div_nonneg hnum (le_of_lt hpos)) (by norm_num)
      linarith

/-- The preservation factor of `context_deduplication` lies in `[0, 1]`. -/
theorem context_factor_bounds (c : String) :
    0 ≤ (context_deduplication c).2 ∧ (context_deduplication c).2 ≤ 1 := by
  unfold context_deduplication
  constructor
  · refine le_min (by norm_num) ?_
    split
    · exact div_nonneg (Nat.cast_nonneg _) (Nat.cast_nonneg _)
    · norm_num
  · exact le_trans (min_le_left _ _) (by norm_num)

/-- Every preservation factor a strategy reports lies in `[0, 1]`. -/
theorem applyStrategy_factor_bounds {s : StratName} {c c2 : String} {f : ℚ}
    (h : applyStrategy s c = some (c2, f)) : 0 ≤ f ∧ f ≤ 1 := by
  cases s with
  | whitespace_optimization =>
    have hf : f = 1 := ((congrArg Prod.snd (Option.some.inj h)).symm : f = _)
    rw [hf]; norm_num
  | redundancy_elimination =>
    have hf : f = 99 / 100 := ((congrArg Prod.snd (Option.some.inj h)).symm : f = _)
    rw [hf]; norm_num
  | semantic_condensation =>
    have := semantic_factor_bounds h
    exact ⟨by linarith [this.1], this.2⟩
  | pattern_abstraction =>
    have hf : f = 98 / 100 := ((congrArg Prod.snd (Option.some.inj h)).symm : f = _)
    rw [hf]; norm_num
  | context_deduplication =>
    have hf : (context_deduplication c).2 = f :=
      congrArg Prod.snd (Option.some.inj h)
    rw [← hf]; exact context_factor_bounds c
  | aggressive_compression =>
    have hf : f = 9 / 10 := ((congrArg Prod.snd (Option.some.inj h)).symm : f = _)
    rw [hf]; norm_num

/-- Last element of a non-empty list via the default-carrying accessor. -/
theorem getLast?_cons_eq_getLastD (a : ℚ) :
    ∀ l : List ℚ, (a :: l).getLast? = some (l.getLastD a)
  | [] => rfl
  | b :: bs => by
    rw [List.getLast?_cons_cons, getLast?_cons_eq_getLastD b bs,
      List.getLastD_cons]

/-- Appending to a list moves the default-carrying last accessor. -/
theorem getLastD_append_singleton (x d : ℚ) :
    ∀ l : List ℚ, (l ++ [x]).getLastD d = x
  | [] => rfl
  | b :: bs => by
    rw [List.cons_append]
    simp only [List.getLastD_cons]
    exact getLastD_append_singleton x b bs

/-- Invariant of the pipeline loop: the running preservation score stays in
`[0, 1]`, the ghost score trace prefixed with the initial `1` is
non-increasing and ends at the running score, and the trace stays parallel
to `method_used`. -/
theorem pipelineGo_pres_inv (o : Nat) (t : ℚ) (m : ℤ) :
    ∀ (strats : List StratName) (c : String) (p : ℚ) (used : List String)
      (scores : List ℚ),
      0 ≤ p → p ≤ 1 →
      List.Chain' (fun x y => y ≤ x) (1 :: scores) →
      scores.getLastD 1 = p →
      used.length = scores.length →
      0 ≤ (pipelineGo o t m strats c p used scores).2.1 ∧
      (pipelineGo o t m strats c p used scores).2.1 ≤ 1 ∧
      List.Chain' (fun x y => y ≤ x)
        (1 :: (pipelineGo o t m strats c p used scores).2.2.2) ∧
      (pipelineGo o t m strats c p used scores).2.2.2.getLastD 1 =
        (pipelineGo o t m strats c p used scores).2.1 ∧
      (pipelineGo o t m strats c p used scores).2.2.1.length =
        (pipelineGo o t m strats c p used scores).2.2.2.length := by
  intro strats
  induction strats with
  | nil =>
    intro c p used scores h0 h1 hch hlast hlen
    exact ⟨h0, h1, hch, hlast, hlen⟩
  | cons s rest ih =>
    intro c p used scores h0 h1 hch hlast hlen
    rw [pipelineGo_cons]
    split
    · exact ⟨h0, h1, hch, hlast, hlen⟩
    · rcases happ : applyStrategy s c with _ | ⟨c2, f⟩ <;> simp only [happ]
      · exact ih c p used scores h0 h1 hch hlast hlen
      · obtain ⟨hf0, hf1⟩ := applyStrategy_factor_bounds happ
        have hp2_0 : 0 ≤ p * f := mul_nonneg h0 hf0
        have hp2_p : p * f ≤ p := mul_le_of_le_one_right h0 hf1
        have hp2_1 : p * f ≤ 1 := le_trans hp2_p h1
        have hch2 : List.Chain' (fun x y => y ≤ x) (1 :: (scores ++ [p * f])) := by
          rw [show (1 : ℚ) :: (scores ++ [p * f]) = (1 :: scores) ++ [p * f] by rfl]
          rw [List.chain'_append]
          refine ⟨hch, List.chain'_singleton _, ?_⟩
          intro x hx y hy
          rw [getLast?_cons_eq_getLastD] at hx
          simp only [Option.mem_def, Option.some.injEq] at hx
          simp only [List.head?_cons, Option.mem_def, Option.some.injEq] at hy
          subst hx; subst hy
          rw [hlast]
          exact hp2_p
        have hlast2 : (scores ++ [p * f]).getLastD 1 = p * f :=
          getLastD_append_singleton _ _ _
        have hlen2 : (used ++ [s.pyName]).length = (scores ++ [p * f]).length := by
          simp [hlen]
        split
        · exact ⟨hp2_0, hp2_1, hch2, hlast2, hlen2⟩
        · exact ih c2 (p * f) (used ++ [s.pyName]) (scores ++ [p * f])
            hp2_0 hp2_1 hch2 hlast2 hlen2

/-- C2: along any run of the pipeline of `compress_content`, the running
`preservation_score` is non-increasing as each successive strategy name is
appended to `method_used` (the ghost score trace, one entry per applied
strategy, forms a non-increasing chain from the initial `1`), and the
final score — which is the `preservation_score` field of the
`compress_content` result on a fresh cache — lies in `[0, 1]`. -/
theorem claim_C2_preservation (content : String) (t : ℚ) (mt : ℤ) (b : Bool) :
    List.Chain' (fun x y => y ≤ x)
      (1 :: (runPipeline content t mt b).2.2.2) ∧
    0 ≤ (runPipeline content t mt b).2.1 ∧
    (runPipeline content t mt b).2.1 ≤ 1 ∧
    (runPipeline content t mt b).2.2.2.getLastD 1 =
      (runPipeline content t mt b).2.1 ∧
    (runPipeline content t mt b).2.2.1.length =
      (runPipeline content t mt b).2.2.2.length ∧
    (compress_content [] content t mt b).1.preservation_score =
      (runPipeline content t mt b).2.1 := by
  have h := pipelineGo_pres_inv content.length t mt
    (selectStrategies t b) content 1 [] []
    (by norm_num) (by norm_num) (List.chain'_singleton _) rfl rfl
  exact ⟨h.2.2.1, h.1, h.2.1, h.2.2.2.1, h.2.2.2.2, rfl⟩

end SemCompress

namespace SemCompress

/-- C9 (counterexample): on the empty string `semantic_condensation`
divides by `len(original_content) = 0` and raises, so the preservation
factor is not defined there — refuting the claim for every content
string. -/
theorem claim_C9_cx : semantic_condensation "" = none := by decide

/-- C9 (amended): for every non-empty content string,
`semantic_condensation` returns, and its preservation factor equals
`max(0.95, 1 - 2*(chars_removed/original_chars))` where `chars_removed` is
the decrease in character count; the factor lies in `[0.95, 1]`.  On the
empty string the computation raises instead (see the counterexample). -/
theorem claim_C9_semantic_factor (s : String) (h : s ≠ "") :
    ∃ out f, semantic_condensation s = some (out, f) ∧
      f = max (19 / 20 : ℚ) (1 - 2 * (((s.length : ℚ) - out.length) / s.length)) ∧
      19 / 20 ≤ f ∧ f ≤ 1 := by
  have hlen : s.length ≠ 0 := by
    intro h0
    apply h
    cases s with
    | mk data =>
      cases data with
      | nil => rfl
      | cons c cs => simp [String.length] at h0
  have heq : semantic_condensation s = some (String.mk (semanticTransform s.data),
      max (19 / 20)
        (1 - (((s.length : ℚ) - (semanticTransform s.data).length) / s.length) * 2)) := by
    unfold semantic_condensation
    rw [if_neg hlen]
  refine ⟨String.mk (semanticTransform s.data),
    max (19 / 20)
      (1 - (((s.length : ℚ) - (semanticTransform s.data).length) / s.length) * 2),
    heq, ?_, semantic_factor_bounds heq⟩
  have : (String.mk (semanticTransform s.data)).length =
      (semanticTransform s.data).length := rfl
  rw [this]
  congr 1
  ring

/-- C9 witness: on the one-character string `"a"` the amended claim applies
(no phrase, filler or whitespace change, so the factor is `1`). -/
theorem claim_C9_witness :
    ∃ out f, semantic_condensation "a" = some (out, f) ∧
      f = max (19 / 20 : ℚ)
        (1 - 2 * ((((("a" : String).length : ℚ)) - out.length) / ("a" : String).length)) ∧
      19 / 20 ≤ f ∧ f ≤ 1 :=
  claim_C9_semantic_factor "a" (by decide)

end SemCompress

namespace SemCompress

/-- On a list with no `p`-character, `takeWhile p` is empty. -/
theorem takeWhile_eq_nil_of_free {p : Char → Bool} :
    ∀ {l : List Char}, (∀ c ∈ l, p c = false) → l.takeWhile p = []
  | [], _ => rfl
  | c :: cs, h => by
    simp [List.takeWhile_cons, h c (List.mem_cons_self c cs)]

/-- On a list with no `p`-character, `dropWhile p` is the identity. -/
theorem dropWhile_eq_self_of_free {p : Char → Bool} :
    ∀ {l : List Char}, (∀ c ∈ l, p c = false) → l.dropWhile p = l
  | [], _ => rfl
  | c :: cs, h => by
    simp [List.dropWhile_cons, h c (List.mem_cons_self c cs)]

/-- Stripping is the identity on whitespace-free lines. -/
theorem stripWs_eq_self {l : List Char}
    (h : ∀ c ∈ l, isSpaceChar c = false) : stripWs l = l := by
  unfold stripWs rstripWs
  rw [dropWhile_eq_self_of_free h,
    dropWhile_eq_self_of_free (fun c hc => h c (List.mem_reverse.mp hc)),
    List.reverse_reverse]

/-- On a newline-free prefix, splitting distributes into the first line. -/
theorem splitNl_append_free :
    ∀ {a : List Char}, (∀ c ∈ a, c ≠ '\n') → ∀ {l x : List Char}
      {xs : List (List Char)}, splitNl l = x :: xs →
      splitNl (a ++ l) = (a ++ x) :: xs
  | [], _, l, x, xs, h => by simpa using h
  | c :: a', ha, l, x, xs, h => by
    have hc : ¬ c = '\n' := ha c (List.mem_cons_self c a')
    have ih := splitNl_append_free (fun d hd => ha d (List.mem_cons_of_mem c hd)) h
    show splitNl (c :: (a' ++ l)) = (c :: (a' ++ x)) :: xs
    simp only [splitNl, if_neg hc, ih]

/-- Splitting a newline-free text gives that single line. -/
theorem splitNl_free {l : List Char} (h : ∀ c ∈ l, c ≠ '\n') :
    splitNl l = [l] := by
  have := @splitNl_append_free l h [] [] [] rfl
  simpa using this

/-- Splitting `k` newlines followed by a newline-free tail. -/
theorem splitNl_replicate_append {b : List Char} (hb : ∀ c ∈ b, c ≠ '\n') :
    ∀ k : ℕ, splitNl (List.replicate k '\n' ++ b) =
      List.replicate k ([] : List Char) ++ [b]
  | 0 => by simpa using splitNl_free hb
  | k + 1 => by
    rw [List.replicate_succ, List.cons_append]
    show splitNl ('\n' :: (List.replicate k '\n' ++ b)) = _
    rw [show splitNl ('\n' :: (List.replicate k '\n' ++ b)) =
        [] :: splitNl (List.replicate k '\n' ++ b) by simp [splitNl]]
    rw [splitNl_replicate_append hb k, List.replicate_succ, List.cons_append]

/-- Phase 1 of `eliminate_redundancy` is the identity when no stripped line
occurs more than twice. -/
theorem phase1Go_noop {freq : List Char → Nat} :
    ∀ {lines : List (List Char)},
      (∀ line ∈ lines, stripWs line = [] ∨ ¬ 2 < freq (stripWs line)) →
      ∀ refs counter, phase1Go freq lines refs counter = lines
  | [], _, _, _ => rfl
  | line :: rest, h, refs, counter => by
    have hcond : ¬ (stripWs line ≠ [] ∧ 2 < freq (stripWs line)) := by
      rcases h line (List.mem_cons_self line rest) with h1 | h1
      · exact fun hc => hc.1 h1
      · exact fun hc => h1 hc.2
    simp only [phase1Go, if_neg hcond]
    rw [phase1Go_noop (fun l hl => h l (List.mem_cons_of_mem line hl))]

/-- A `p`-free prefix passes through the run rewriter unchanged. -/
theorem mapRunsGo_append_free {p : Char → Bool} {f : List Char → List Char} :
    ∀ {a : List Char}, (∀ c ∈ a, p c = false) → ∀ l,
      mapRunsGo p f [] (a ++ l) = a ++ mapRunsGo p f [] l
  | [], _, l => rfl
  | c :: a', h, l => by
    have hc : p c = false := h c (List.mem_cons_self c a')
    have ih := mapRunsGo_append_free (f := f) (fun d hd => h d (List.mem_cons_of_mem c hd)) l
    show mapRunsGo p f [] (c :: (a' ++ l)) = c :: (a' ++ mapRunsGo p f [] l)
    simp only [mapRunsGo, hc, Bool.false_eq_true, if_false, List.isEmpty_nil,
      if_true, List.nil_append, ih]

/-- The run rewriter is the identity on `p`-free text. -/
theorem mapRuns_free {p : Char → Bool} {f : List Char → List Char}
    {l : List Char} (h : ∀ c ∈ l, p c = false) : mapRuns p f l = l := by
  have := mapRunsGo_append_free (p := p) (f := f) h []
  simpa [mapRuns, mapRunsGo] using this

/-- A full `p`-run is accumulated wholesale. -/
theorem mapRunsGo_run {p : Char → Bool} {f : List Char → List Char} :
    ∀ {r : List Char}, (∀ c ∈ r, p c = true) → ∀ acc l,
      mapRunsGo p f acc (r ++ l) = mapRunsGo p f (r.reverse ++ acc) l
  | [], _, acc, l => by simp
  | c :: r', h, acc, l => by
    have hc : p c = true := h c (List.mem_cons_self c r')
    have ih := mapRunsGo_run (f := f) (fun d hd => h d (List.mem_cons_of_mem c hd)) (c :: acc) l
    show mapRunsGo p f acc (c :: (r' ++ l)) = mapRunsGo p f ((c :: r').reverse ++ acc) l
    simp only [mapRunsGo, hc, if_true, ih]
    congr 1
    simp

/-- Rewriting a text that is a `p`-free part, one maximal `p`-run, and a
`p`-free part: only the run goes through `f`. -/
theorem mapRuns_three {p : Char → Bool} {f : List Char → List Char}
    {a r b : List Char} (ha : ∀ c ∈ a, p c = false)
    (hr : ∀ c ∈ r, p c = true) (hrne : r ≠ [])
    (hb : ∀ c ∈ b, p c = false) :
    mapRuns p f (a ++ r ++ b) = a ++ f r ++ b := by
  unfold mapRuns
  rw [List.append_assoc, mapRunsGo_append_free ha (r ++ b),
    mapRunsGo_run hr [] b, List.append_assoc]
  congr 1
  cases b with
  | nil =>
    have : (r.reverse ++ []).isEmpty = false := by
      simp [List.isEmpty_iff, hrne]
    simp only [mapRunsGo, this, Bool.false_eq_true, if_false]
    simp
  | cons c cs =>
    have hc : p c = false := hb c (List.mem_cons_self c cs)
    have hne : (r.reverse ++ []).isEmpty = false := by
      simp [List.isEmpty_iff, hrne]
    simp only [mapRunsGo, hc, Bool.false_eq_true, if_false, hne]
    rw [show mapRunsGo p f [] cs = cs from
      mapRuns_free (fun d hd => hb d (List.mem_cons_of_mem c hd))]
    simp

/-- A scan whose matcher fails on every suffix of a `P`-good text is the
identity. -/
theorem scanSub_noop {try_ : List Char → Option (Nat × List Char)}
    {P : Char → Prop}
    (H : ∀ l, (∀ c ∈ l, P c) → try_ l = none) :
    ∀ (fuel : Nat) (l : List Char), (∀ c ∈ l, P c) →
      scanSub try_ fuel l = l
  | 0, l, _ => rfl
  | _ + 1, [], _ => rfl
  | fuel + 1, c :: cs, h => by
    simp only [scanSub, H (c :: cs) h]
    rw [scanSub_noop H fuel cs (fun d hd => h d (List.mem_cons_of_mem c hd))]

end SemCompress

namespace SemCompress

/-- The repetition unit of pattern 3 needs whitespace after `The`. -/
theorem parseRep3_none {l : List Char}
    (h : ∀ c ∈ l, isSpaceChar c = false) : parseRep3 l = none := by
  unfold parseRep3
  split
  · have hw : (l.drop 3).takeWhile isSpaceChar = [] :=
      takeWhile_eq_nil_of_free fun c hc => h c (List.drop_subset _ _ hc)
    simp [hw]
  · rfl

/-- Pattern 3 cannot match inside whitespace-free text. -/
theorem tryMatchP3_none {l : List Char}
    (h : ∀ c ∈ l, isSpaceChar c = false) : tryMatchP3 l = none := by
  unfold tryMatchP3
  have h3 : reps3 (l.length + 1) l = [] := by
    simp [reps3, parseRep3_none h]
  simp [h3]

/-- Pattern 4 cannot match inside whitespace-free text. -/
theorem tryMatchP4_none {l : List Char}
    (h : ∀ c ∈ l, isSpaceChar c = false) : tryMatchP4 l = none := by
  unfold tryMatchP4
  have hp : parsePairs (l.length + 1) l = [] := by
    simp only [parsePairs]
    by_cases hwd : (l.takeWhile isWordChar).isEmpty
    · simp [hwd]
    · have hws : (l.drop (l.takeWhile isWordChar).length).takeWhile isSpaceChar = [] :=
        takeWhile_eq_nil_of_free fun c hc => h c (List.drop_subset _ _ hc)
      simp [hwd, hws]
  rw [hp]
  rfl

/-- A code fence needs a backtick. -/
theorem parseTicks_none {l : List Char} (h : ∀ c ∈ l, c ≠ '\x60') :
    parseTicks l = none := by
  unfold parseTicks
  split
  · exact absurd rfl (h '\x60' (List.mem_cons_self _ _))
  · rfl

/-- Pattern 5 cannot match inside backtick-free text. -/
theorem tryMatchP5_none {l : List Char} (h : ∀ c ∈ l, c ≠ '\x60') :
    tryMatchP5 l = none := by
  unfold tryMatchP5
  rw [parseTicks_none h]

/-- The blank-line pattern deletes a pure newline run entirely (the
whitespace before the first and after the last newline is empty). -/
theorem blankRun_replicate (k : ℕ) (hk : 3 ≤ k) :
    (if 3 ≤ (List.replicate k '\n').count '\n' then
        (List.replicate k '\n').takeWhile (· ≠ '\n') ++ ([] : List Char) ++
          ((List.replicate k '\n').reverse.takeWhile (· ≠ '\n')).reverse
      else List.replicate k '\n') = [] := by
  have hcount : (List.replicate k '\n').count '\n' = k := by
    simp [List.count_replicate]
  have htake : (List.replicate k '\n').takeWhile (· ≠ '\n') = [] :=
    takeWhile_eq_nil_of_free fun c hc => by
      rw [List.eq_of_mem_replicate hc]; simp
  rw [if_pos (by rw [hcount]; exact hk), htake, List.reverse_replicate, htake]
  rfl

end SemCompress

namespace SemCompress

/-- Stripping a whitespace-only line gives the empty line. -/
theorem stripWs_ws_nil {l : List Char}
    (h : ∀ c ∈ l, isSpaceChar c = true) : stripWs l = [] := by
  have hd : l.dropWhile isSpaceChar = [] := by
    induction l with
    | nil => rfl
    | cons c cs ih =>
      rw [List.dropWhile_cons, if_pos (h c (List.mem_cons_self c cs))]
      exact ih fun d hd2 => h d (List.mem_cons_of_mem c hd2)
  unfold stripWs rstripWs
  rw [hd]
  rfl

/-- No occurrences of a non-empty line among empty lines. -/
theorem count_eq_zero_of_all_nil {L : List (List Char)} {x : List Char}
    (hL : ∀ m ∈ L, m = ([] : List Char)) (hx : x ≠ []) : L.count x = 0 := by
  rw [List.count_eq_zero]
  intro hmem
  exact hx (hL x hmem)

/-- One-step unfolding of splitNl at a newline. -/
theorem splitNl_cons_nl (cs : List Char) :
    splitNl ('\n' :: cs) = [] :: splitNl cs := by
  rw [show splitNl ('\n' :: cs) = [] :: splitNl cs by simp [splitNl]]

/-- One-step unfolding of splitNl at a non-newline. -/
theorem splitNl_cons_ne {c : Char} (hc : ¬ c = '\n') {l x : List Char}
    {xs : List (List Char)} (h : splitNl l = x :: xs) :
    splitNl (c :: l) = (c :: x) :: xs := by
  show (if c = '\n' then [] :: splitNl l
    else match splitNl l with
      | [] => [[c]]
      | l2 :: ls => (c :: l2) :: ls) = (c :: x) :: xs
  rw [if_neg hc, h]

/-- Splitting a whitespace run that ends in a newline, followed by a
newline-free tail: the lines are some non-empty list of whitespace-only
middles, then the tail. -/
theorem splitNl_ws_append {b : List Char} (hb : ∀ c ∈ b, c ≠ '\n') :
    ∀ r : List Char, (∀ c ∈ r, isSpaceChar c = true) →
      r.getLast? = some '\n' →
      ∃ mids : List (List Char), mids ≠ [] ∧
        splitNl (r ++ b) = mids ++ [b] ∧
        ∀ m ∈ mids, ∀ c ∈ m, isSpaceChar c = true := by
  intro r
  induction r with
  | nil => intro _ hlast; simp at hlast
  | cons c r2 ih =>
    intro hws hlast
    by_cases hc : c = '\n'
    · subst hc
      cases r2 with
      | nil =>
        refine ⟨[[]], by simp, ?_, by simp⟩
        show splitNl ('\n' :: ([] ++ b)) = [[]] ++ [b]
        rw [List.nil_append, splitNl_cons_nl, splitNl_free hb]
        rfl
      | cons d r3 =>
        have hlast2 : (d :: r3).getLast? = some '\n' := by
          rw [← List.getLast?_cons_cons]
          exact hlast
        obtain ⟨mids, hne, hsp, hall⟩ := ih
          (fun x hx => hws x (List.mem_cons_of_mem _ hx)) hlast2
        refine ⟨[] :: mids, by simp, ?_, ?_⟩
        · show splitNl ('\n' :: ((d :: r3) ++ b)) = ([] :: mids) ++ [b]
          rw [splitNl_cons_nl, hsp]
          rfl
        · intro m hm
          rcases List.mem_cons.mp hm with rfl | hm2
          · simp
          · exact hall m hm2
    · cases r2 with
      | nil =>
        exfalso
        apply hc
        simpa using hlast
      | cons d r3 =>
        have hlast2 : (d :: r3).getLast? = some '\n' := by
          rw [← List.getLast?_cons_cons]
          exact hlast
        obtain ⟨mids, hne, hsp, hall⟩ := ih
          (fun x hx => hws x (List.mem_cons_of_mem _ hx)) hlast2
        obtain ⟨m0, ms, rfl⟩ := List.exists_cons_of_ne_nil hne
        refine ⟨(c :: m0) :: ms, by simp, ?_, ?_⟩
        · show splitNl (c :: ((d :: r3) ++ b)) = ((c :: m0) :: ms) ++ [b]
          have hsp2 : splitNl ((d :: r3) ++ b) = m0 :: (ms ++ [b]) := by
            simpa using hsp
          rw [splitNl_cons_ne hc hsp2]
          rfl
        · intro m hm
          rcases List.mem_cons.mp hm with rfl | hm2
          · intro x hx
            rcases List.mem_cons.mp hx with rfl | hx2
            · exact hws x (List.mem_cons_self _ _)
            · exact hall m0 (List.mem_cons_self _ _) x hx2
          · exact hall m (List.mem_cons_of_mem _ hm2)

/-- The blank-line pattern deletes a whitespace run that starts and ends
with a newline and holds at least three of them: the whitespace before the
first and after the last newline is empty. -/
theorem blankRun_ws {r : List Char} (h2 : r.head? = some '\n')
    (h3 : r.getLast? = some '\n') (hk : 3 ≤ r.count '\n') :
    (if 3 ≤ r.count '\n' then
        r.takeWhile (· ≠ '\n') ++ ([] : List Char) ++
          (r.reverse.takeWhile (· ≠ '\n')).reverse
      else r) = [] := by
  rw [if_pos hk]
  have ht1 : r.takeWhile (· ≠ '\n') = [] := by
    cases r with
    | nil => rfl
    | cons c cs =>
      have hcn : c = '\n' := by simpa using h2
      simp [List.takeWhile_cons, hcn]
  have ht2 : r.reverse.takeWhile (· ≠ '\n') = [] := by
    have hrev : r.reverse.head? = some '\n' := by
      rw [List.head?_reverse]
      exact h3
    cases hr : r.reverse with
    | nil => rfl
    | cons c cs =>
      rw [hr] at hrev
      have hcn : c = '\n' := by simpa using hrev
      simp [List.takeWhile_cons, hcn]
  rw [ht1, ht2]
  rfl

/-- C10 (amended): the second phase re-applies every redundancy-catalog
pattern with the replacement keeping group 1 when one exists (patterns 2-5)
and the empty string otherwise (pattern 1); consequently, for content made
of a whitespace- and backtick-free line, a whitespace run that starts and
ends with a newline and contains at least three newlines (so interleaved
horizontal whitespace between the newlines is allowed), and another
whitespace- and backtick-free line, `eliminate_redundancy` deletes the
entire whitespace run and joins the two lines with no separator.  (When
whitespace borders the run on the outside, later catalog patterns also
collapse the surviving whitespace - see the counterexample.) -/
theorem claim_C10_blank_run_deletion (a r b : String)
    (ha : ∀ c ∈ a.data, isSpaceChar c = false ∧ c ≠ '\x60')
    (hb : ∀ c ∈ b.data, isSpaceChar c = false ∧ c ≠ '\x60')
    (hr1 : ∀ c ∈ r.data, isSpaceChar c = true)
    (hr2 : r.data.head? = some '\n')
    (hr3 : r.data.getLast? = some '\n')
    (hrk : 3 ≤ r.data.count '\n') :
    eliminate_redundancy (String.mk (a.data ++ r.data ++ b.data)) =
      (String.mk (a.data ++ b.data), 99 / 100) := by
  have hA : ∀ c ∈ a.data, isSpaceChar c = false := fun c hc => (ha c hc).1
  have hB : ∀ c ∈ b.data, isSpaceChar c = false := fun c hc => (hb c hc).1
  have hAnl : ∀ c ∈ a.data, c ≠ '\n' := by
    intro c hc h2
    have h3 := hA c hc
    rw [h2] at h3
    simp [isSpaceChar] at h3
  have hBnl : ∀ c ∈ b.data, c ≠ '\n' := by
    intro c hc h2
    have h3 := hB c hc
    rw [h2] at h3
    simp [isSpaceChar] at h3
  have hABs : ∀ c ∈ a.data ++ b.data, isSpaceChar c = false := by
    intro c hc
    rcases List.mem_append.mp hc with h | h
    · exact hA c h
    · exact hB c h
  have hABt : ∀ c ∈ a.data ++ b.data, c ≠ '\x60' := by
    intro c hc
    rcases List.mem_append.mp hc with h | h
    · exact (ha c h).2
    · exact (hb c h).2
  obtain ⟨r2, hr0⟩ : ∃ r2, r.data = '\n' :: r2 := by
    cases h : r.data with
    | nil => rw [h] at hr2; simp at hr2
    | cons c cs =>
      rw [h] at hr2
      have hcn : c = '\n' := by simpa using hr2
      subst hcn
      exact ⟨cs, rfl⟩
  have hRne : r.data ≠ [] := by rw [hr0]; simp
  obtain ⟨mids, hne, hsp, hall⟩ := splitNl_ws_append hBnl r.data hr1 hr3
  obtain ⟨m0, ms, rfl⟩ := List.exists_cons_of_ne_nil hne
  have h2 : m0 :: (ms ++ [b.data]) = [] :: splitNl (r2 ++ b.data) := by
    rw [← List.cons_append, ← hsp, hr0, List.cons_append, splitNl_cons_nl]
  injection h2 with hm0 h3
  subst hm0
  have hsp2 : splitNl (r.data ++ b.data) = [] :: (ms ++ [b.data]) := by
    rw [hsp]
    rfl
  have hsplit : splitNl (a.data ++ r.data ++ b.data) =
      a.data :: (ms ++ [b.data]) := by
    rw [List.append_assoc]
    have := splitNl_append_free hAnl hsp2
    rw [this]
    simp
  have hmsnil : ∀ m ∈ ms.map stripWs, m = ([] : List Char) := by
    intro m hm
    obtain ⟨m2, hm2, rfl⟩ := List.mem_map.mp hm
    exact stripWs_ws_nil (hall m2 (List.mem_cons_of_mem _ hm2))
  have hmap : (a.data :: (ms ++ [b.data])).map stripWs =
      a.data :: (ms.map stripWs ++ [b.data]) := by
    simp [List.map_cons, List.map_append, stripWs_eq_self hA,
      stripWs_eq_self hB]
  have hlinescond : ∀ line ∈ splitNl (a.data ++ r.data ++ b.data),
      stripWs line = [] ∨
        ¬ 2 < ((splitNl (a.data ++ r.data ++ b.data)).map
          stripWs).count (stripWs line) := by
    rw [hsplit, hmap]
    intro line hline
    rcases List.mem_cons.mp hline with hla | hline2
    · rw [hla, stripWs_eq_self hA]
      by_cases hAe : a.data = []
      · left
        rw [hAe]
      · right
        have c1 : (ms.map stripWs).count a.data = 0 :=
          count_eq_zero_of_all_nil hmsnil hAe
        have c2 : List.count a.data [b.data] ≤ 1 := by
          by_cases h' : a.data = b.data <;> simp [List.count_singleton, h']
        rw [List.count_cons_self, List.count_append, c1]
        omega
    · rcases List.mem_append.mp hline2 with hmid | hlast
      · left
        exact stripWs_ws_nil (hall line (List.mem_cons_of_mem _ hmid))
      · rw [List.mem_singleton.mp hlast, stripWs_eq_self hB]
        by_cases hBe : b.data = []
        · left
          rw [hBe]
        · right
          have c1 : (ms.map stripWs).count b.data = 0 :=
            count_eq_zero_of_all_nil hmsnil hBe
          have c2 : List.count b.data [b.data] = 1 := by
            simp
          rw [List.count_cons, List.count_append, c1, c2]
          split <;> omega
  have hphase : phase1Go
      (fun c => ((splitNl (a.data ++ r.data ++ b.data)).map
        stripWs).count c)
      (splitNl (a.data ++ r.data ++ b.data)) [] 1 =
      splitNl (a.data ++ r.data ++ b.data) :=
    phase1Go_noop hlinescond [] 1
  have hblank : subBlankRuns []
      (a.data ++ r.data ++ b.data) =
      a.data ++ b.data := by
    unfold subBlankRuns
    rw [mapRuns_three hA hr1 hRne hB, blankRun_ws hr2 hr3 hrk]
    simp
  have hdouble : subDoubleWs (a.data ++ b.data) = a.data ++ b.data := by
    unfold subDoubleWs
    exact mapRuns_free hABs
  have h4 : scanSub tryMatchP3 ((a.data ++ b.data).length + 1)
      (a.data ++ b.data) = a.data ++ b.data :=
    scanSub_noop (fun l hl => tryMatchP3_none hl) _ _ hABs
  have h5 : scanSub tryMatchP4 ((a.data ++ b.data).length + 1)
      (a.data ++ b.data) = a.data ++ b.data :=
    scanSub_noop (fun l hl => tryMatchP4_none hl) _ _ hABs
  have h6 : scanSub tryMatchP5 ((a.data ++ b.data).length + 1)
      (a.data ++ b.data) = a.data ++ b.data :=
    scanSub_noop (fun l hl => tryMatchP5_none hl) _ _ hABt
  unfold eliminate_redundancy
  simp only [hphase, joinNl_splitNl, hblank, hdouble, h4, h5, h6]

end SemCompress

namespace SemCompress

set_option maxRecDepth 1000000 in
/-- C10 (counterexample): when horizontal whitespace borders the newline
run, the surviving spaces are further collapsed by catalog pattern 2, so
the surrounding lines `"a "` and `" b"` are neither joined with no
separator (`"a  b"`) nor is the whole whitespace run deleted (`"ab"`);
the output is `"a b"`. -/
theorem claim_C10_cx :
    (eliminate_redundancy "a \n\n\n b").1 = "a b" ∧
    ("a b" : String) ≠ "a  b" ∧ ("a b" : String) ≠ "ab" := by
  refine ⟨by decide, by decide, by decide⟩

/-- C10 witness: the claim's own example `"a\n\n\nb"` becomes `"ab"` with
preservation `0.99`. -/
theorem claim_C10_witness :
    eliminate_redundancy
        (String.mk (("a" : String).data ++ ("\n\n\n" : String).data ++
          ("b" : String).data)) =
      (String.mk (("a" : String).data ++ ("b" : String).data), 99 / 100) :=
  claim_C10_blank_run_deletion "a" "\n\n\n" "b" (by decide) (by decide)
    (by decide) (by decide) (by decide) (by decide)

end SemCompress
